import Mathlib

/-!
Verification development for the SyzMini program-minimization engine
(`prog/minimization.go`, both the influence-optimized variant and the base
variant, plus the supporting typed-argument model).

The Go code is shallowly embedded: programs, calls and argument trees are
inductive values; the equivalence oracle is an environment of responses
indexed by invocation count; the in-place mutations of the Go code become
explicit state passing.  Loops that Go runs with mutable indices become
structural recursions (counting down an index, or running on an explicit
fuel that is proven sufficient at every call site).
-/

set_option maxHeartbeats 1000000
set_option linter.unusedVariables false
set_option linter.unnecessarySimpa false

namespace SyzMini

/-! ## Basic data model -/

/-- Argument direction (`prog.DirIn`, `DirOut`, `DirInOut`). -/
inductive Dir where
  | dirIn | dirOut | dirInOut
deriving DecidableEq, Repr

/-- Array kinds used by `ArrayType` (`ArrayRandLen`, `ArrayRangeLen`). -/
inductive ArrayKind where
  | randLen | rangeLen
deriving DecidableEq, Repr

/-- Buffer kinds used by `BufferType` (`BufferBlobRand`, `BufferBlobRange`,
`BufferFilename`, compressed buffers). -/
inductive BufKind where
  | blobRand | blobRange | filename | compressed
deriving DecidableEq, Repr

/-- Type descriptors for arguments.  Defaults for the const-like types are
stored in the descriptor (`DefaultArg` of the Go code reads them from the
type).  `rangeBegin` is `ArrayType.RangeBegin` / `BufferType.RangeBegin`. -/
inductive ArgType where
  | common
  | intT (defVal : Nat)
  | flagsT (defVal : Nat)
  | procT (opt : Bool) (defVal : Nat)
  | ptrT
  | structT (fieldNames : List String)
  | unionT (fieldNames : List String)
  | arrayT (kind : ArrayKind) (rangeBegin : Nat)
  | resourceT (defVal : Nat)
  | bufferT (kind : BufKind) (rangeBegin : Nat) (noZ : Bool) (varlen : Bool)
deriving DecidableEq, Repr

/-- A reference to a producing result argument: call index plus argument
path.  The Go code uses a pointer; per the design notes a stable identifier
(call index + path) has the same identity semantics inside one program. -/
abbrev ResRef := Nat × List Nat

/-- Argument trees.  `constA` backs `ConstArg` (integers, flags, proc ids);
`pointerA` backs `PointerArg` (`res = none` is the NULL/special sentinel);
`groupA` backs `GroupArg` (structs and arrays); `unionA` backs `UnionArg`;
`dataA` backs `DataArg` — it keeps the original backing bytes together with
the current length, mirroring how the Go blob minimizer re-slices a shared
backing array (`a.data = a.Data()[:n]`); `resultA` backs `ResultArg` (the
reverse `uses` sets of the Go code are derived from the forward references
instead of being stored). -/
inductive Arg where
  | constA (ty : ArgType) (dir : Dir) (val : Nat)
  | pointerA (ty : ArgType) (dir : Dir) (res : Option Arg)
  | groupA (ty : ArgType) (dir : Dir) (inner : List Arg)
  | unionA (ty : ArgType) (dir : Dir) (idx : Nat) (opt : Arg)
  | dataA (ty : ArgType) (dir : Dir) (orig : List Nat) (curLen : Nat)
  | resultA (ty : ArgType) (dir : Dir) (res : Option ResRef) (val : Nat)
deriving Repr

/-- The type descriptor of an argument (`arg.Type()`). -/
def Arg.ty : Arg → ArgType
  | .constA t _ _ => t
  | .pointerA t _ _ => t
  | .groupA t _ _ => t
  | .unionA t _ _ _ => t
  | .dataA t _ _ _ => t
  | .resultA t _ _ _ => t

/-- The direction of an argument (`arg.Dir()`). -/
def Arg.dir : Arg → Dir
  | .constA _ d _ => d
  | .pointerA _ d _ => d
  | .groupA _ d _ => d
  | .unionA _ d _ _ => d
  | .dataA _ d _ _ => d
  | .resultA _ d _ _ => d

/-- Current bytes of a data argument (`a.Data()`). -/
def Arg.dataBytes : Arg → List Nat
  | .dataA _ _ orig curLen => orig.take curLen
  | _ => []

/-- Syscall metadata handle (`Syscall`): name, numeric id, the
`no_minimize` attribute and the declared argument field names
(`Meta.Args[i].Name`). -/
structure Meta where
  name : String
  id : Nat
  noMinimize : Bool
  argNames : List String
deriving DecidableEq, Repr

/-- Call properties (`CallProps`): fault injection index, async flag,
rerun count.  The zero value is the default. -/
structure CallProps where
  failNth : Nat := 0
  async : Bool := false
  rerun : Nat := 0
deriving DecidableEq, Repr

/-- A call: metadata, properties and the top-level argument trees. -/
structure Call where
  meta : Meta
  props : CallProps := {}
  args : List Arg := []
deriving Repr

instance : Inhabited Call := ⟨{ meta := { name := "", id := 0, noMinimize := false, argNames := [] } }⟩

/-- A program.  Besides the ordered call list it carries the minimization
telemetry fields of the Go `Prog`: `Minimize_CallsCovHash` (per-call
coverage hashes from the last execution), `Minimize_ExecuteStatus`
(whether that execution completed) and `Influence_Hash_NeedUpdate`
(whether the next execution should collect hashes). -/
structure Prog where
  calls : List Call
  covHash : List Nat := []
  execStatus : Bool := false
  needUpdate : Bool := false
deriving Repr

/-- Deep copy (`p.Clone()`).  Value semantics make it the identity. -/
def Prog.Clone (p : Prog) : Prog := p

/-- The influence matrix (`Target.InfluenceMatrix`), indexed by syscall
ids.  The Go code stores a dense `[][]uint8`; entries are 0 or 1. -/
abbrev Mat := Nat → Nat → Nat

/-- Point update of the influence matrix. -/
def matSet (m : Mat) (a b v : Nat) : Mat :=
  fun i j => if i = a ∧ j = b then v else m i j

/-- The oracle environment.  `ok n p k` is the accept/reject answer of the
`n`-th oracle invocation on proposal `p` with target index `k`;
`execStat n` and `hash n` are the out-of-band telemetry of that
invocation (execution-completed flag and per-call coverage hashes). -/
structure Env where
  ok : Nat → Prog → Int → Bool
  execStat : Nat → Bool
  hash : Nat → List Nat

/-- Modelled from the spec: `sanitizeFix` (the sanitize pass the oracle
adapter runs before each query) lives outside the provided minimization
sources; per §4.3 it neutralizes harmful argument values.  It is modelled
as the identity — the claims below quantify over programs that are already
sanitized.  `debugValidate` is a pure assertion pass and is omitted. -/
def sanitizeFix (p : Prog) : Prog := p

/-- One oracle invocation, wrapped the way `Minimize` wraps `pred0`:
sanitize, then query.  Telemetry is written back into the proposal exactly
when the proposal requested it (`Influence_Hash_NeedUpdate`), which is how
the host executor behaves per §4.3; the invocation counter advances. -/
def askPred (env : Env) (os : Nat) (p : Prog) (k : Int) : Bool × Prog × Nat :=
  let p1 := sanitizeFix p
  let p2 := if p1.needUpdate then
      { p1 with covHash := env.hash os, execStatus := env.execStat os }
    else p1
  (env.ok os p1 k, p2, os + 1)

/-! ## IntQueue (the "consume code" queue used by the influence BFS) -/

/-- The `IntQueue` of minimization.go. -/
structure IntQueue where
  items : List Int
deriving DecidableEq, Repr

/-- `NewIntQueue()`. -/
def NewIntQueue : IntQueue := ⟨[]⟩

/-- `Enqueue` appends to the back. -/
def IntQueue.Enqueue (q : IntQueue) (item : Int) : IntQueue :=
  ⟨q.items ++ [item]⟩

/-- `Dequeue` reads `items[0]` and drops it.  The Go code "handles" the
empty case with an empty `if` body and then indexes `items[0]` anyway, so
on an empty queue it crashes with an out-of-range panic; the partial
access is modelled by `Option`, with `none` standing for the panic. -/
def IntQueue.Dequeue (q : IntQueue) : Option (Int × IntQueue) :=
  match q.items with
  | [] => none
  | x :: rest => some (x, ⟨rest⟩)

/-- `Length`. -/
def IntQueue.Length (q : IntQueue) : Nat := q.items.length

/-- `IsEmpty`. -/
def IntQueue.IsEmpty (q : IntQueue) : Bool := q.items.isEmpty

/-! ## The influence BFS of `removeCalls` / `removeCalls_optimize` -/

/-- The influence-edge relation between call positions: position `j`
influences position `i` when `InfluenceMatrix[Calls[j].Meta.ID][Calls[i].Meta.ID] == 1`. -/
def edgeFn (mat : Mat) (calls : List Call) : Nat → Nat → Bool :=
  fun j i => mat (calls.getD j default).meta.id (calls.getD i default).meta.id == 1

/-- The inner loop `for j := id - 1; j >= 0; j--` of the BFS visits
`id-1, …, 0` and selects the positions with an influence edge into `id`. -/
def innerPreds (edge : Nat → Nat → Bool) (id : Nat) : List Nat :=
  (List.range id).reverse.filter (fun j => edge j id)

/-- Enqueue a list of positions in order. -/
def enqueueAll (q : IntQueue) (l : List Nat) : IntQueue :=
  l.foldl (fun q j => q.Enqueue (Int.ofNat j)) q

/-- The inner `for queue.Length() > 0` worklist loop of the influence BFS.
Each dequeued position `id` marks every edge-predecessor `j < id` in the
influence map and enqueues those not recorded in `queue_map` (`queue_map`
is only ever written for seeds, so re-enqueueing of non-seeds can happen,
exactly as in the Go code).  The loop runs on an explicit fuel; fuel is
proven sufficient at the call site (`bfsFuelBound`), so the fuel-exhausted
branch is never taken there.  The `none` branch of `Dequeue` is the
out-of-range crash; it is unreachable because it sits under the
`Length > 0` guard. -/
def bfsLoop (edge : Nat → Nat → Bool) (qmap : Nat → Bool) :
    Nat → IntQueue → (Nat → Bool) → (Nat → Bool)
  | 0, _, inf => inf
  | fuel + 1, q, inf =>
    if 0 < q.Length then
      match q.Dequeue with
      | some (id, q') =>
        let ps := innerPreds edge id.toNat
        bfsLoop edge qmap fuel (enqueueAll q' (ps.filter (fun j => !qmap j)))
          (fun j => inf j || ps.contains j)
      | none => inf
    else inf

/-- Termination measure of the BFS queue: the sum of `2^position`. -/
def qMeasure (q : IntQueue) : Nat :=
  (q.items.map (fun v => 2 ^ v.toNat)).sum

/-- One seed's BFS, fueled by one more than the measure of its singleton
start queue. -/
def bfsRun (edge : Nat → Nat → Bool) (qmap : Nat → Bool) (seed : Nat)
    (inf : Nat → Bool) : Nat → Bool :=
  bfsLoop edge qmap (2 ^ seed + 1) (NewIntQueue.Enqueue (Int.ofNat seed)) inf

/-- The outer loop `for i := callIndex0 - 1; i >= 0; i--`: every position
`i < k0` with an influence edge into `k0` is seeded (enqueued, marked in
both maps) and its BFS is drained before the next seed. -/
def seedLoop (edge : Nat → Nat → Bool) (k0 : Nat) :
    Nat → (Nat → Bool) → (Nat → Bool) → (Nat → Bool) × (Nat → Bool)
  | 0, qmap, inf => (qmap, inf)
  | c + 1, qmap, inf =>
    if edge c k0 then
      let qmap' := fun j => qmap j || decide (j = c)
      let inf' := fun j => inf j || decide (j = c)
      seedLoop edge k0 c qmap' (bfsRun edge qmap' c inf')
    else
      seedLoop edge k0 c qmap inf

/-- The final `influence_map` computed before any call is removed. -/
def influenceMap (edge : Nat → Nat → Bool) (k0 : Nat) : Nat → Bool :=
  (seedLoop edge k0 k0 (fun _ => false) (fun _ => false)).2

/-- `remove_front_ids`: the positions `0 ≤ i < callIndex0` whose
influence-map entry is still false, in increasing order. -/
def removeFrontIds (edge : Nat → Nat → Bool) (k0 : Nat) : List Nat :=
  (List.range k0).filter (fun i => influenceMap edge k0 i == false)

/-! ## The spec-side closure: relevant predecessors of the target -/

/-- The set `R` of §4.4 Stage B, as the spec words it: seeded with the
positions `i < k0` whose syscall influences the target's syscall, and
closed under adding any `j < i` with an influence edge into some `i ∈ R`. -/
inductive Relevant (edge : Nat → Nat → Bool) (k0 : Nat) : Nat → Prop
  | seed (i : Nat) : i < k0 → edge i k0 = true → Relevant edge k0 i
  | step (i j : Nat) : Relevant edge k0 i → j < i → edge j i = true →
      Relevant edge k0 j

/-- Downward reachability along influence edges, rooted at `x`. -/
inductive Down (edge : Nat → Nat → Bool) : Nat → Nat → Prop
  | refl (x : Nat) : Down edge x x
  | head (x m j : Nat) : m < x → edge m x = true → Down edge m j → Down edge x j

theorem Down.le {edge : Nat → Nat → Bool} {x j : Nat} (h : Down edge x j) : j ≤ x := by
  induction h with
  | refl => exact le_refl _
  | head x m j hm _ _ ih => omega

theorem Down.snoc {edge : Nat → Nat → Bool} {x i j : Nat}
    (h : Down edge x i) (hj : j < i) (he : edge j i = true) : Down edge x j := by
  induction h with
  | refl x => exact Down.head x j j hj he (Down.refl j)
  | head x m j' hm he' _ ih => exact Down.head x m j hm he' (ih hj he)

/-- Pushing relevance down along a reachability chain. -/
theorem Down.relevant {edge : Nat → Nat → Bool} {k0 x j : Nat}
    (hd : Down edge x j) : Relevant edge k0 x → Relevant edge k0 j := by
  induction hd with
  | refl x => exact id
  | head x m j hm he _ ih => exact fun hx => ih (Relevant.step x m hx hm he)

/-- `Relevant` unfolds to: downward-reachable from some seed. -/
theorem relevant_iff_down (edge : Nat → Nat → Bool) (k0 j : Nat) :
    Relevant edge k0 j ↔ ∃ s, s < k0 ∧ edge s k0 = true ∧ Down edge s j := by
  constructor
  · intro h
    induction h with
    | seed i hi he => exact ⟨i, hi, he, Down.refl i⟩
    | step i j _ hj he ih =>
      obtain ⟨s, hs, hse, hd⟩ := ih
      exact ⟨s, hs, hse, hd.snoc hj he⟩
  · rintro ⟨s, hs, hse, hd⟩
    exact hd.relevant (Relevant.seed s hs hse)

/-! ## Correctness of the BFS: it computes exactly the closure `R` -/

theorem mem_innerPreds {edge : Nat → Nat → Bool} {id j : Nat} :
    j ∈ innerPreds edge id ↔ j < id ∧ edge j id = true := by
  simp [innerPreds, List.mem_filter, List.mem_reverse, List.mem_range]

theorem innerPreds_nodup (edge : Nat → Nat → Bool) (id : Nat) :
    (innerPreds edge id).Nodup :=
  (List.nodup_reverse.mpr (List.nodup_range id)).filter _

theorem enqueueAll_items (q : IntQueue) (l : List Nat) :
    (enqueueAll q l).items = q.items ++ l.map Int.ofNat := by
  induction l generalizing q with
  | nil => simp [enqueueAll]
  | cons a l ih =>
    simp only [enqueueAll, List.foldl_cons, List.map_cons] at *
    rw [ih]
    simp [IntQueue.Enqueue]

/-- Sum of distinct powers of two below `2^n`. -/
theorem sum_two_pow_lt {L : List Nat} {n : Nat} (hnd : L.Nodup)
    (hlt : ∀ x ∈ L, x < n) : (L.map (fun x => 2 ^ x)).sum < 2 ^ n := by
  have hsub : L.toFinset ⊆ Finset.range n := by
    intro x hx
    simp only [List.mem_toFinset] at hx
    exact Finset.mem_range.mpr (hlt x hx)
  have h1 : (L.map (fun x => 2 ^ x)).sum = ∑ x ∈ L.toFinset, 2 ^ x :=
    (List.sum_toFinset _ hnd).symm
  have h2 : ∑ x ∈ L.toFinset, 2 ^ x ≤ ∑ x ∈ Finset.range n, 2 ^ x :=
    Finset.sum_le_sum_of_subset hsub
  have h3 : ∀ m, ∑ x ∈ Finset.range m, 2 ^ x = 2 ^ m - 1 := by
    intro m
    induction m with
    | zero => rfl
    | succ m ih =>
      rw [Finset.sum_range_succ, ih, pow_succ]
      have : 1 ≤ 2 ^ m := Nat.one_le_two_pow
      omega
  have h4 : 1 ≤ 2 ^ n := Nat.one_le_two_pow
  rw [h1]
  rw [h3 n] at h2
  omega

/-- Positions marked by draining the worklist from root `x`: reachable by a
chain of at least one downward influence edge whose intermediate nodes are
not recorded in `queue_map`. -/
inductive MarkedFrom (edge : Nat → Nat → Bool) (qmap : Nat → Bool) : Nat → Nat → Prop
  | direct (x j : Nat) : j < x → edge j x = true → MarkedFrom edge qmap x j
  | trans (x m j : Nat) : m < x → edge m x = true → qmap m = false →
      MarkedFrom edge qmap m j → MarkedFrom edge qmap x j

theorem MarkedFrom.pushRelevant {edge : Nat → Nat → Bool} {qmap : Nat → Bool}
    {k0 x j : Nat} (h : MarkedFrom edge qmap x j) :
    Relevant edge k0 x → Relevant edge k0 j := by
  induction h with
  | direct x j hj he => exact fun hx => Relevant.step x j hx hj he
  | trans x m j hm he _ _ ih => exact fun hx => ih (Relevant.step x m hx hm he)

theorem Down.marked {edge : Nat → Nat → Bool} {qmap : Nat → Bool} {x j : Nat}
    (hd : Down edge x j) (hne : x ≠ j) (hq : ∀ y, y < x → qmap y = false) :
    MarkedFrom edge qmap x j := by
  induction hd with
  | refl x => exact absurd rfl hne
  | head x m j hm he hd ih =>
    by_cases hmj : m = j
    · exact hmj ▸ MarkedFrom.direct x m hm he
    · exact MarkedFrom.trans x m j hm he (hq m hm)
        (ih hmj (fun y hy => hq y (lt_trans hy hm)))

theorem qMeasure_enqueueAll (q : IntQueue) (l : List Nat) :
    qMeasure (enqueueAll q l) = qMeasure q + (l.map (fun x => 2 ^ x)).sum := by
  induction l generalizing q with
  | nil => simp [enqueueAll, qMeasure]
  | cons x rest ih =>
    simp only [enqueueAll, List.foldl_cons] at *
    rw [ih]
    simp [qMeasure, IntQueue.Enqueue]
    omega

/-- Characterization of the worklist loop, for sufficient fuel: a position
ends up `true` in the influence map iff it was already `true` or is marked
from some queue element. -/
theorem bfsLoop_spec (edge : Nat → Nat → Bool) (qmap : Nat → Bool) :
    ∀ (fuel : Nat) (q : IntQueue) (inf : Nat → Bool), qMeasure q < fuel →
      ∀ j, (bfsLoop edge qmap fuel q inf j = true ↔
        inf j = true ∨ ∃ x ∈ q.items, MarkedFrom edge qmap x.toNat j) := by
  intro fuel
  induction fuel with
  | zero => intro q inf hflt j; omega
  | succ fuel ih =>
    intro q inf hflt j
    match hq : q with
    | ⟨[]⟩ =>
      simp [bfsLoop, IntQueue.Length]
    | ⟨x :: rest⟩ =>
      have hlen : 0 < IntQueue.Length ⟨x :: rest⟩ := by
        simp [IntQueue.Length]
      have hdq : IntQueue.Dequeue ⟨x :: rest⟩ = some (x, ⟨rest⟩) := rfl
      set ps := innerPreds edge x.toNat with hps
      set newElems := ps.filter (fun j => !qmap j) with hne
      have hq2 : qMeasure (enqueueAll ⟨rest⟩ newElems) < fuel := by
        have hsum : (newElems.map (fun x => 2 ^ x)).sum < 2 ^ x.toNat := by
          refine sum_two_pow_lt ((innerPreds_nodup edge x.toNat).filter _) ?_
          intro y hy
          have : y ∈ ps := List.mem_of_mem_filter hy
          exact (mem_innerPreds.mp this).1
        have hmq : qMeasure ⟨x :: rest⟩ = 2 ^ x.toNat + qMeasure ⟨rest⟩ := by
          simp [qMeasure]
        rw [qMeasure_enqueueAll]
        omega
      have hstep : bfsLoop edge qmap (fuel + 1) ⟨x :: rest⟩ inf j =
          bfsLoop edge qmap fuel (enqueueAll ⟨rest⟩ newElems)
            (fun j => inf j || ps.contains j) j := by
        simp only [bfsLoop, hlen, if_pos, hdq]
      rw [hstep, ih _ _ hq2 j]
      have hmemQ : ∀ y, y ∈ (enqueueAll ⟨rest⟩ newElems).items ↔
          y ∈ rest ∨ ∃ m ∈ newElems, y = Int.ofNat m := by
        intro y
        rw [enqueueAll_items]
        simp only [List.mem_append, List.mem_map]
        constructor
        · rintro (h | ⟨m, hm, hy⟩)
          · exact Or.inl h
          · exact Or.inr ⟨m, hm, hy.symm⟩
        · rintro (h | ⟨m, hm, hy⟩)
          · exact Or.inl h
          · exact Or.inr ⟨m, hm, hy.symm⟩
      constructor
      · rintro (hinf | ⟨y, hy, hmk⟩)
        · simp only [Bool.or_eq_true] at hinf
          rcases hinf with hinf | hcont
          · exact Or.inl hinf
          · have hjps : j ∈ ps := by
              simpa using hcont
            obtain ⟨hjx, hje⟩ := mem_innerPreds.mp hjps
            exact Or.inr ⟨x, List.mem_cons_self x rest,
              MarkedFrom.direct x.toNat j hjx hje⟩
        · rcases (hmemQ y).mp hy with hyr | ⟨m, hm, hym⟩
          · exact Or.inr ⟨y, List.mem_cons_of_mem x hyr, hmk⟩
          · subst hym
            have hmps : m ∈ ps := List.mem_of_mem_filter hm
            have hmq : qmap m = false := by
              have := List.of_mem_filter hm
              simpa using this
            obtain ⟨hmx, hme⟩ := mem_innerPreds.mp hmps
            have : MarkedFrom edge qmap m j := by simpa using hmk
            exact Or.inr ⟨x, List.mem_cons_self x rest,
              MarkedFrom.trans x.toNat m j hmx hme hmq this⟩
      · rintro (hinf | ⟨y, hy, hmk⟩)
        · exact Or.inl (by simp [hinf])
        · rcases List.mem_cons.mp hy with hyx | hyr
          · subst hyx
            cases hmk with
            | direct _ j hjx hje =>
              refine Or.inl ?_
              have hjps : j ∈ ps := mem_innerPreds.mpr ⟨hjx, hje⟩
              simp [List.elem_iff, hjps]
            | trans _ m j hmx hme hmq hmk' =>
              refine Or.inr ⟨Int.ofNat m, ?_, by simpa using hmk'⟩
              refine (hmemQ _).mpr (Or.inr ⟨m, ?_, rfl⟩)
              rw [hne, List.mem_filter]
              exact ⟨mem_innerPreds.mpr ⟨hmx, hme⟩, by simp [hmq]⟩
          · exact Or.inr ⟨y, (hmemQ y).mpr (Or.inl hyr), hmk⟩

/-- Characterization of a single seed's BFS run. -/
theorem bfsRun_spec (edge : Nat → Nat → Bool) (qmap : Nat → Bool) (seed : Nat)
    (inf : Nat → Bool) (j : Nat) :
    (bfsRun edge qmap seed inf j = true ↔
      inf j = true ∨ MarkedFrom edge qmap seed j) := by
  have hm : qMeasure (NewIntQueue.Enqueue (Int.ofNat seed)) = 2 ^ seed := by
    simp [qMeasure, NewIntQueue, IntQueue.Enqueue]
  rw [bfsRun, bfsLoop_spec edge qmap (2 ^ seed + 1) _ inf (by omega) j]
  constructor
  · rintro (h | ⟨x, hx, hmk⟩)
    · exact Or.inl h
    · have : x = Int.ofNat seed := by
        simpa [NewIntQueue, IntQueue.Enqueue] using hx
      subst this
      exact Or.inr (by simpa using hmk)
  · rintro (h | hmk)
    · exact Or.inl h
    · exact Or.inr ⟨Int.ofNat seed, by simp [NewIntQueue, IntQueue.Enqueue],
        by simpa using hmk⟩

/-- Invariant-carrying characterization of the outer seed loop. -/
theorem seedLoop_spec (edge : Nat → Nat → Bool) (k0 : Nat) :
    ∀ (c : Nat) (qmap inf : Nat → Bool), c ≤ k0 →
      (∀ s, qmap s = true ↔ (c ≤ s ∧ s < k0 ∧ edge s k0 = true)) →
      (∀ j, inf j = true → Relevant edge k0 j) →
      (∀ s j, c ≤ s → s < k0 → edge s k0 = true → Down edge s j → inf j = true) →
      ∀ j, ((seedLoop edge k0 c qmap inf).2 j = true ↔ Relevant edge k0 j) := by
  intro c
  induction c with
  | zero =>
    intro qmap inf _ _ hsound hcomp j
    simp only [seedLoop]
    constructor
    · exact hsound j
    · intro hr
      obtain ⟨s, hs, hse, hd⟩ := (relevant_iff_down edge k0 j).mp hr
      exact hcomp s j (Nat.zero_le s) hs hse hd
  | succ c ih =>
    intro qmap inf hck hq hsound hcomp j
    have hclt : c < k0 := by omega
    by_cases he : edge c k0 = true
    · have hstep : seedLoop edge k0 (c + 1) qmap inf =
          seedLoop edge k0 c (fun j => qmap j || decide (j = c))
            (bfsRun edge (fun j => qmap j || decide (j = c)) c
              (fun j => inf j || decide (j = c))) := by
        simp only [seedLoop, he, if_pos]
      rw [hstep]
      set qmap' := fun j => qmap j || decide (j = c) with hqm'
      set inf' := fun j => inf j || decide (j = c) with hinf'
      have hqmlow : ∀ y, y < c → qmap' y = false := by
        intro y hy
        have h1 : qmap y = false := by
          cases h : qmap y
          · rfl
          · have := (hq y).mp h
            omega
        simp [hqm', h1]
        omega
      refine ih qmap' _ (by omega) ?_ ?_ ?_ j
      · intro s
        by_cases hsc : s = c
        · subst hsc
          simp [hqm', hclt, he]
        · simp only [hqm', Bool.or_eq_true, decide_eq_true_eq, hsc, or_false]
          rw [hq s]
          constructor
          · rintro ⟨h1, h2, h3⟩
            exact ⟨by omega, h2, h3⟩
          · rintro ⟨h1, h2, h3⟩
            exact ⟨by omega, h2, h3⟩
      · intro j' hj'
        rcases (bfsRun_spec edge qmap' c _ j').mp hj' with h1 | h1
        · simp only [hinf', Bool.or_eq_true, decide_eq_true_eq] at h1
          rcases h1 with h1 | h1
          · exact hsound j' h1
          · exact h1 ▸ Relevant.seed c hclt he
        · exact h1.pushRelevant (Relevant.seed c hclt he)
      · intro s j' hcs hsk hse hd
        refine (bfsRun_spec edge qmap' c _ j').mpr ?_
        by_cases hsc : s = c
        · subst hsc
          by_cases hjc : j' = s
          · refine Or.inl ?_
            simp [hinf', hjc]
          · exact Or.inr (hd.marked (fun h => hjc h.symm) hqmlow)
        · have : c + 1 ≤ s := by omega
          refine Or.inl ?_
          simp [hinf', hcomp s j' this hsk hse hd]
    · have hstep : seedLoop edge k0 (c + 1) qmap inf = seedLoop edge k0 c qmap inf := by
        simp only [seedLoop, he, if_neg]
        simp [he]
      rw [hstep]
      refine ih qmap inf (by omega) ?_ hsound ?_ j
      · intro s
        rw [hq s]
        by_cases hsc : s = c
        · subst hsc
          constructor
          · omega
          · rintro ⟨_, _, h⟩
            exact absurd h he
        · constructor
          · rintro ⟨h1, h2, h3⟩
            exact ⟨by omega, h2, h3⟩
          · rintro ⟨h1, h2, h3⟩
            exact ⟨by omega, h2, h3⟩
      · intro s j' hcs hsk hse hd
        by_cases hsc : s = c
        · exact absurd (hsc ▸ hse) he
        · exact hcomp s j' (by omega) hsk hse hd

/-- The influence map computed by the imperative BFS holds exactly the
relevant predecessors `R` of the target, as the spec defines them. -/
theorem influenceMap_iff (edge : Nat → Nat → Bool) (k0 j : Nat) :
    influenceMap edge k0 j = true ↔ Relevant edge k0 j := by
  refine seedLoop_spec edge k0 k0 _ _ (le_refl _) ?_ (by simp) ?_ j
  · intro s
    constructor
    · intro h
      simp at h
    · rintro ⟨h1, h2, _⟩
      omega
  · intro s j' h1 h2
    omega

/-- `remove_front_ids` holds exactly the positions before the target that
are not relevant predecessors. -/
theorem mem_removeFrontIds (edge : Nat → Nat → Bool) (k0 i : Nat) :
    i ∈ removeFrontIds edge k0 ↔ i < k0 ∧ ¬ Relevant edge k0 i := by
  simp only [removeFrontIds, List.mem_filter, List.mem_range, beq_iff_eq]
  rw [← influenceMap_iff edge k0 i]
  constructor
  · rintro ⟨h1, h2⟩
    exact ⟨h1, by simp [h2]⟩
  · rintro ⟨h1, h2⟩
    refine ⟨h1, ?_⟩
    cases h : influenceMap edge k0 i
    · rfl
    · exact absurd h h2

/-! ## Call removal and the call-level minimizer -/

/-- Default value of a const-like or resource type (`DefaultArg`,
`ResourceType.Default`).  Modelled from the spec: defaults live in the
type descriptors, which are built outside the provided sources. -/
def ArgType.defVal : ArgType → Nat
  | .intT d => d
  | .flagsT d => d
  | .procT _ d => d
  | .resourceT d => d
  | _ => 0

/-- Modelled from the spec: the resource-reference cascade of call
removal.  `RemoveCall` itself lives outside the provided minimization
sources; per §3 ("removing a producer clears each consumer to its
default") every result argument that references an argument of the
removed call `i` is cleared to its type's default, and references to
later calls shift down by one position. -/
def clearRefs (i : Nat) : Arg → Arg
  | .constA t d v => .constA t d v
  | .pointerA t d res =>
    match res with
    | none => .pointerA t d none
    | some a => .pointerA t d (some (clearRefs i a))
  | .groupA t d inner => .groupA t d (inner.attach.map (fun x => clearRefs i x.1))
  | .unionA t d idx opt => .unionA t d idx (clearRefs i opt)
  | .dataA t d o n => .dataA t d o n
  | .resultA t d res v =>
    match res with
    | none => .resultA t d none v
    | some (ci, path) =>
      if ci = i then .resultA t d none t.defVal
      else if i < ci then .resultA t d (some (ci - 1, path)) v
      else .resultA t d (some (ci, path)) v
termination_by a => sizeOf a
decreasing_by
  all_goals simp_wf
  all_goals first
    | omega
    | (have hsz := List.sizeOf_lt_of_mem x.2; omega)

/-- The cascade applied to one surviving call. -/
def Call.clearRefs (i : Nat) (c : Call) : Call :=
  { c with args := c.args.map (SyzMini.clearRefs i) }

/-- `p.RemoveCall(i)`: drop call `i` and run the reference cascade over
the surviving calls.  The telemetry fields are untouched. -/
def Prog.RemoveCall (p : Prog) (i : Nat) : Prog :=
  { p with calls := (p.calls.eraseIdx i).map (Call.clearRefs i) }

/-- Removing a list of positions back-to-front: the loop
`for index := range ids { p.RemoveCall(ids[len-1-index]) }` over an
ascending `ids` list. -/
def removeByIdsDesc (p : Prog) (ids : List Nat) : Prog :=
  ids.foldr (fun i q => q.RemoveCall i) p

/-- `remove_post_ids`: all positions after the target, collected only
when `callIndex0 >= 0 && callIndex0+2 < len(p0.Calls)`. -/
def removePostIds (len : Nat) (k0 : Int) : List Nat :=
  if 0 ≤ k0 ∧ k0 + 2 < (len : Int) then
    List.range' (k0.toNat + 1) (len - (k0.toNat + 1))
  else []

/-- State threaded through the call-level minimizer: current baseline,
current target index, the shared influence matrix, the oracle invocation
counter and the `influence_update_flag`. -/
structure CState where
  p0 : Prog
  k0 : Int
  mat : Mat
  os : Nat
  flag : Bool

/-- Stage A (suffix drop) of `removeCalls_optimize`: propose removing all
calls after the target in one step. -/
def postStage (env : Env) (ile : Bool) (st : CState) : CState :=
  let ids := removePostIds st.p0.calls.length st.k0
  if ids ≠ [] then
    let p := removeByIdsDesc st.p0.Clone ids
    let p := if ile then { p with needUpdate := true } else p
    let (ok, p', os') := askPred env st.os p st.k0
    if ok then
      let p'' := if ile then { p' with needUpdate := false, execStatus := false } else p'
      { st with p0 := p'', os := os' }
    else { st with os := os' }
  else st

/-- Stage B (influence-guided prefix drop): propose removing, in one step,
every position before the target that the BFS left unmarked.
`frontIds` is computed from the original program before Stage A runs,
exactly as in the Go code. -/
def prefixStage (env : Env) (ile : Bool) (frontIds : List Nat) (st : CState) : CState :=
  if frontIds ≠ [] then
    let p := removeByIdsDesc st.p0.Clone frontIds
    let callIndex := st.k0 - frontIds.length
    let p := if ile then { p with needUpdate := true } else p
    let (ok, p', os') := askPred env st.os p callIndex
    if ok then
      let p'' := if ile then { p' with needUpdate := false, execStatus := false } else p'
      { st with p0 := p'', k0 := callIndex, os := os' }
    else { st with os := os' }
  else st

/-- One iteration (position `i`) of the pairwise-removal loop, including
the dynamic influence-learning step executed on rejection. -/
def pairwiseStep (env : Env) (ile : Bool) (i : Nat) (st : CState) : CState :=
  if (i : Int) = st.k0 then st
  else
    let callIndex := if (i : Int) < st.k0 then st.k0 - 1 else st.k0
    let p := st.p0.Clone.RemoveCall i
    let p := if ile then { p with needUpdate := true } else p
    let (ok, p', os') := askPred env st.os p callIndex
    if ok then
      let p'' := if ile then { p' with needUpdate := false, execStatus := false } else p'
      { st with p0 := p'', k0 := callIndex, os := os' }
    else
      if ile = true ∧ p'.execStatus = true ∧ i < p'.calls.length ∧
          i + 1 < st.p0.calls.length ∧
          p'.covHash.getD i 0 ≠ st.p0.covHash.getD (i + 1) 0 ∧
          p'.covHash.getD i 0 ≠ 0 ∧ st.p0.covHash.getD (i + 1) 0 ≠ 0 ∧
          st.mat (st.p0.calls.getD i default).meta.id
            (st.p0.calls.getD (i + 1) default).meta.id = 0 then
        { st with
            mat := matSet st.mat (st.p0.calls.getD i default).meta.id
              (st.p0.calls.getD (i + 1) default).meta.id 1,
            flag := true, os := os' }
      else { st with os := os' }

/-- Stage C: `for i := len(p0.Calls) - 1; i >= 0; i--`, as a countdown. -/
def pairwiseLoop (env : Env) (ile : Bool) : Nat → CState → CState
  | 0, st => st
  | c + 1, st => pairwiseLoop env ile c (pairwiseStep env ile c st)

/-- `removeCalls_optimize`: the BFS-derived front ids are computed from
the entry program, then the suffix drop, the prefix drop and the pairwise
loop run in order.  The `crash` parameter is accepted and unused, as in
the source. -/
def removeCalls_optimize (env : Env) (ile : Bool) (mat : Mat) (os : Nat)
    (p0 : Prog) (callIndex0 : Int) (crash : Bool) : CState :=
  let edge := edgeFn mat p0.calls
  let frontIds := removeFrontIds edge callIndex0.toNat
  let st1 := postStage env ile ⟨p0, callIndex0, mat, os, false⟩
  let st2 := prefixStage env ile frontIds st1
  pairwiseLoop env ile st2.p0.calls.length st2

/-- `resetCallProps`: propose resetting every call's properties to the
default in one step (the oracle is consulted only if some call actually
differs). -/
def resetCallProps (env : Env) (os : Nat) (p0 : Prog) (callIndex0 : Int) : Prog × Nat :=
  let p := { p0.Clone with calls := p0.calls.map (fun c => { c with props := {} }) }
  let anyDifferent := p0.calls.any (fun c => c.props ≠ ({} : CallProps))
  if anyDifferent then
    let (ok, p', os') := askPred env os p callIndex0
    if ok then (p', os') else (p0, os')
  else (p0, os)

/-- One per-call-property probe of `minimizeCallProps`: propose `q` with
call `callIndex` replaced by `c'`, commit on accept. -/
def propsProbe (env : Env) (callIndex : Nat) (callIndex0 : Int)
    (q : Prog) (os1 : Nat) (c' : Call) : Prog × Nat :=
  let p := { q.Clone with calls := q.calls.set callIndex c' }
  let (ok, p', os') := askPred env os1 p callIndex0
  if ok then (p', os') else (q, os')

/-- `minimizeCallProps`: independently try dropping fault injection,
the async flag and the rerun count of call `callIndex`.  The conditions
read the properties at entry; each accepted proposal replaces the
baseline before the next one is built. -/
def minimizeCallProps (env : Env) (os : Nat) (p0 : Prog) (callIndex : Nat)
    (callIndex0 : Int) : Prog × Nat :=
  let props := (p0.calls.getD callIndex default).props
  let st1 :=
    if props.failNth > 0 then
      let c := p0.calls.getD callIndex default
      propsProbe env callIndex callIndex0 p0 os
        { c with props := { c.props with failNth := 0 } }
    else (p0, os)
  let st2 :=
    if props.async then
      let c := st1.1.calls.getD callIndex default
      propsProbe env callIndex callIndex0 st1.1 st1.2
        { c with props := { c.props with async := false } }
    else st1
  if props.rerun > 0 then
    let c := st2.1.calls.getD callIndex default
    propsProbe env callIndex callIndex0 st2.1 st2.2
      { c with props := { c.props with rerun := 0 } }
  else st2

/-! ## The argument-level minimizer

The Go code mutates a shared clone `ctx.p` through argument aliases.  The
embedding threads the focused subtree explicitly and carries a
"plug" function that rebuilds the whole proposal from the subtree; this is
faithful because every shrink step that returns `false` restores the
argument exactly (with the size patcher and conditional-field hooks
modelled as the identity, see below), and every mutating step returns
`true` immediately, after which the traversal restarts from a fresh clone.
Oracle telemetry is written back only into proposals whose
`Influence_Hash_NeedUpdate` flag is set; the argument phase never sets it.

The traversal runs on an explicit fuel: the restart loop (`goto again`)
and the depth recursion both consume it.  The Go loop terminates because
every restart records a fresh `tried_paths` entry; the theorems below hold
for every fuel, which covers the terminating execution. -/

instance : Inhabited Arg := ⟨.constA .common .dirIn 0⟩

/-- Fixed parameters of the argument minimizer (`minimizeArgsCtx` minus
the mutable state): the oracle environment, the target index, the crash
flag, and which source variant of `ArrayType.minimize` is in force
(`argOpt = true` is the variant with the whole-array emptying step). -/
structure ACtx where
  env : Env
  k0 : Int
  crash : Bool
  argOpt : Bool

/-- Mutable state of the argument minimizer: the committed baseline
(`*ctx.p0`), the `tried_paths` set and the oracle invocation counter. -/
structure AState where
  p0 : Prog
  tried : List String
  os : Nat

/-- `minimizeInt`: in crash mode do nothing; otherwise, if the value
differs from the type's default, propose the default.  Modelled from the
spec: `setDefaultConditions` (the conditional-field patcher) lives outside
the provided sources; per §4.2 it reshapes conditional fields and reports
whether it did.  Programs here are modelled without conditional fields, so
`patched` is `false` and the reject path restores the value and returns
`false`. -/
def minimizeIntStep (ctx : ACtx) (plug : Arg → Prog) (ty : ArgType) (dir : Dir)
    (v defV : Nat) (path : String) (s : AState) : Bool × Arg × AState :=
  if ctx.crash then (false, .constA ty dir v, s)
  else if v = defV then (false, .constA ty dir v, s)
  else
    let a' := Arg.constA ty dir defV
    let (ok, pr, os') := askPred ctx.env s.os (plug a') ctx.k0
    if ok then (true, a', { s with p0 := pr, os := os', tried := path :: s.tried })
    else (false, .constA ty dir v, { s with os := os' })

/-- `ResourceType.minimize`: in crash mode do nothing; otherwise clear the
producer reference and set the value to the resource default, restoring
`(res, 0)` on reject (the Go code restores the value to `0`, not to the
original).  Returns `true` in both cases and records the path. -/
def resourceMin (ctx : ACtx) (plug : Arg → Prog) (ty : ArgType) (dir : Dir)
    (res : Option ResRef) (v : Nat) (path : String) (s : AState) :
    Bool × Arg × AState :=
  if ctx.crash then (false, .resultA ty dir res v, s)
  else
    match res with
    | none => (false, .resultA ty dir none v, s)
    | some r0 =>
      let a' := Arg.resultA ty dir none ty.defVal
      let (ok, pr, os') := askPred ctx.env s.os (plug a') ctx.k0
      if ok then (true, a', { s with p0 := pr, os := os', tried := path :: s.tried })
      else (true, .resultA ty dir (some r0) 0, { s with os := os', tried := path :: s.tried })

/-- The blob halving loop of `BufferType.minimize`.  `plugLen n` is the
proposal with the buffer trimmed to `n` bytes (trimming and restoring
re-slice the same backing bytes, as in Go).  The loop keeps the step on
accept, restores and halves on reject, stops at `step = 0` or
`len = minLen`, and in crash mode breaks at the end of the first
non-accepting iteration.  The `len-step >= minLen` guard is an `Int`
comparison because the Go subtraction can go negative.  Fuel is supplied
as `len + step + 1`, which the measure argument shows is sufficient. -/
def blobLoop (ctx : ACtx) (plugLen : Nat → Prog) (minLen : Nat) :
    Nat → Nat → Nat → AState → Nat × AState
  | 0, curLen, _, s => (curLen, s)
  | fuel + 1, curLen, step, s =>
    if minLen < curLen ∧ 0 < step then
      if (minLen : Int) ≤ (curLen : Int) - (step : Int) then
        let newLen := curLen - step
        let (ok, _pr, os') := askPred ctx.env s.os (plugLen newLen) ctx.k0
        if ok then blobLoop ctx plugLen minLen fuel newLen step { s with os := os' }
        else
          if ctx.crash then (curLen, { s with os := os' })
          else blobLoop ctx plugLen minLen fuel curLen (step / 2) { s with os := os' }
      else
        if ctx.crash then (curLen, s)
        else blobLoop ctx plugLen minLen fuel curLen (step / 2) s
    else (curLen, s)

/-- Modelled from the spec: the pad bytes of `SpecialFileLenghts`
mutations (`specialFileLenPad`) are defined outside the provided sources;
one representative pad byte is used. -/
def specialFileLenPad : List Nat := [97]

/-- `bytes.TrimRight(data, specialFileLenPad + "\x00")`. -/
def trimFileRight (l : List Nat) : List Nat :=
  (l.reverse.dropWhile (fun b => specialFileLenPad.contains b || b == 0)).reverse

/-- `BufferType.minimize`.  Out-direction buffers are never touched.  A
compressed buffer would be a `no_minimize` call reaching the argument
minimizer; the Go code panics there ("program-logic bug"), modelled as a
no-op since no claim exercises it. -/
def bufferMin (ctx : ACtx) (plug : Arg → Prog) (ty : ArgType) (dir : Dir)
    (bk : BufKind) (rb : Nat) (noZ varlen : Bool) (orig : List Nat)
    (curLen : Nat) (path : String) (s : AState) : Bool × Arg × AState :=
  let arg := Arg.dataA ty dir orig curLen
  if dir = .dirOut then (false, arg, s)
  else
    match bk with
    | .blobRand | .blobRange =>
      let len0 := min curLen orig.length
      let (len', s') := blobLoop ctx (fun n => plug (.dataA ty dir orig n)) rb
          (len0 + (len0 - rb) + 1) len0 (len0 - rb) s
      if len' ≠ len0 then
        (true, .dataA ty dir orig len',
          { s' with p0 := plug (.dataA ty dir orig len'), tried := path :: s'.tried })
      else (false, arg, s')
    | .filename =>
      if varlen = false then (false, arg, s)
      else
        let data0 := orig.take curLen
        let trimmed := trimFileRight data0
        let newData := if noZ = false then trimmed ++ [0] else trimmed
        if newData = data0 then (false, arg, s)
        else
          let a' := Arg.dataA ty dir newData newData.length
          let (ok, pr, os') := askPred ctx.env s.os (plug a') ctx.k0
          if ok then (true, a', { s with p0 := pr, os := os', tried := path :: s.tried })
          else (true, a', { s with os := os', tried := path :: s.tried })
    | .compressed => (false, arg, s)

mutual

/-- `minimizeArgsCtx.do`: extend the path, skip if already tried,
dispatch on the type, and record the path when the step reports no
progress. -/
def doArg (ctx : ACtx) : Nat → (Arg → Prog) → Arg → String → String →
    AState → Bool × Arg × AState
  | 0, _, arg, _, _, s => (false, arg, s)
  | fuel + 1, plug, arg, field, path0, s =>
    let path := path0 ++ "-" ++ field
    if s.tried.contains path then (false, arg, s)
    else
      match typeMin ctx fuel plug arg path s with
      | (true, a', s') => (true, a', s')
      | (false, a', s') => (false, a', { s' with tried := path :: s'.tried })

/-- The per-type `minimize` dispatch (`TypeCommon` and any shape mismatch
fall through to `false`, like the Go default method). -/
def typeMin (ctx : ACtx) : Nat → (Arg → Prog) → Arg → String → AState →
    Bool × Arg × AState
  | 0, _, arg, _, s => (false, arg, s)
  | fuel + 1, plug, arg, path, s =>
    match arg with
    | .constA ty dir v =>
      match ty with
      | .intT dv => minimizeIntStep ctx plug (.intT dv) dir v dv path s
      | .flagsT dv => minimizeIntStep ctx plug (.flagsT dv) dir v dv path s
      | .procT popt dv =>
        if popt = false then (false, .constA (.procT popt dv) dir v, s)
        else minimizeIntStep ctx plug (.procT popt dv) dir v dv path s
      | t => (false, .constA t dir v, s)
    | .pointerA ty dir res =>
      match res with
      | none => (false, .pointerA ty dir none, s)
      | some inner =>
        let path1 := path ++ ">"
        if s.tried.contains path1 = false then
          let a' := Arg.pointerA ty dir none
          let (ok, pr, os') := askPred ctx.env s.os (plug a') ctx.k0
          if ok then (true, a', { s with p0 := pr, os := os', tried := path1 :: s.tried })
          else (true, a', { s with os := os', tried := path1 :: s.tried })
        else
          match doArg ctx fuel (fun x => plug (.pointerA ty dir (some x))) inner "" path s with
          | (r, inner', s') => (r, .pointerA ty dir (some inner'), s')
    | .groupA ty dir inner =>
      match ty with
      | .structT fields =>
        match structLoop ctx fuel (fun l => plug (.groupA (.structT fields) dir l))
            fields [] inner path s with
        | (r, l', s') => (r, .groupA (.structT fields) dir l', s')
      | .arrayT kind rb =>
        let allPath := path ++ "-all"
        if ctx.argOpt = true ∧ 3 ≤ inner.length ∧ rb = 0 ∧
            s.tried.contains allPath = false then
          let s1 := { s with tried := allPath :: s.tried }
          let a' := Arg.groupA (.arrayT kind rb) dir []
          let (ok, pr, os') := askPred ctx.env s1.os (plug a') ctx.k0
          if ok then (true, a', { s1 with p0 := pr, os := os' })
          else (true, a', { s1 with os := os' })
        else
          match arrayLoop ctx fuel (fun l => plug (.groupA (.arrayT kind rb) dir l))
              kind rb inner inner.length path s with
          | (r, l', s') => (r, .groupA (.arrayT kind rb) dir l', s')
      | t => (false, .groupA t dir inner, s)
    | .unionA ty dir idx uopt =>
      match ty with
      | .unionT fields =>
        match doArg ctx fuel (fun x => plug (.unionA (.unionT fields) dir idx x))
            uopt (fields.getD idx "") path s with
        | (r, o', s') => (r, .unionA (.unionT fields) dir idx o', s')
      | t => (false, .unionA t dir idx uopt, s)
    | .dataA ty dir orig curLen =>
      match ty with
      | .bufferT bk rb noZ varlen =>
        bufferMin ctx plug (.bufferT bk rb noZ varlen) dir bk rb noZ varlen orig curLen path s
      | t => (false, .dataA t dir orig curLen, s)
    | .resultA ty dir res v =>
      match ty with
      | .resourceT dv => resourceMin ctx plug (.resourceT dv) dir res v path s
      | t => (false, .resultA t dir res v, s)

/-- `StructType.minimize`: recurse into the fields in declaration order,
stopping at the first `true`. -/
def structLoop (ctx : ACtx) : Nat → (List Arg → Prog) → List String →
    List Arg → List Arg → String → AState → Bool × List Arg × AState
  | 0, _, _, done, rest, _, s => (false, done ++ rest, s)
  | fuel + 1, plugG, fields, done, rest, path, s =>
    match rest, fields with
    | [], _ => (false, done, s)
    | a :: rest', [] => (false, done ++ a :: rest', s)
    | a :: rest', fname :: fnames' =>
      match doArg ctx fuel (fun x => plugG (done ++ x :: rest')) a fname path s with
      | (true, a', s') => (true, done ++ a' :: rest', s')
      | (false, a', s') => structLoop ctx fuel plugG fnames' (done ++ [a']) rest' path s'

/-- The element loop of `ArrayType.minimize`
(`for i := len(a.Inner) - 1; i >= 0; i--`): try removing element `i`
(only when not in crash mode, the path is fresh, and the kind allows it:
`RandLen`, or `RangeLen` with current length strictly above `RangeBegin`),
otherwise recurse into the element. -/
def arrayLoop (ctx : ACtx) : Nat → (List Arg → Prog) → ArrayKind → Nat →
    List Arg → Nat → String → AState → Bool × List Arg × AState
  | 0, _, _, _, cur, _, _, s => (false, cur, s)
  | fuel + 1, plugG, kind, rb, cur, c, path, s =>
    match c with
    | 0 => (false, cur, s)
    | i + 1 =>
      let elemPath := path ++ "-" ++ toString i
      if ctx.crash = false ∧ s.tried.contains elemPath = false ∧
          (kind = .randLen ∨ (kind = .rangeLen ∧ rb < cur.length)) then
        let s1 := { s with tried := elemPath :: s.tried }
        let cur' := cur.eraseIdx i
        let (ok, pr, os') := askPred ctx.env s1.os (plugG cur') ctx.k0
        if ok then (true, cur', { s1 with p0 := pr, os := os' })
        else (true, cur', { s1 with os := os' })
      else
        match doArg ctx fuel (fun x => plugG (cur.set i x)) (cur.getD i default) "" elemPath s with
        | (true, e', s') => (true, cur.set i e', s')
        | (false, e', s') => arrayLoop ctx fuel plugG kind rb (cur.set i e') i path s'

end

/-- One pass of the per-call loop body: `for j, field := range
ctx.call.Meta.Args { if ctx.do(ctx.call.Args[j], field.Name, "") { goto
again } }`, iterating over the top-level arguments of call `i` of the
fixed clone. -/
def passLoop (ctx : ACtx) (fuel : Nat) (i : Nat) (clone : Prog) :
    List String → Nat → List Arg → AState → Bool × AState
  | [], _, _, s => (false, s)
  | fname :: fnames, j, curArgs, s =>
    let plug := fun a =>
      let c := clone.calls.getD i default
      { clone with calls := clone.calls.set i { c with args := curArgs.set j a } }
    match doArg ctx fuel plug (curArgs.getD j default) fname "" s with
    | (true, _, s') => (true, s')
    | (false, a', s') => passLoop ctx fuel i clone fnames (j + 1) (curArgs.set j a') s'

/-- The `again:` restart loop: clone the current baseline, run one pass,
and restart while some step reports progress. -/
def againLoop (ctx : ACtx) (i : Nat) : Nat → AState → AState
  | 0, s => s
  | fuel + 1, s =>
    let clone := s.p0.Clone
    let call := clone.calls.getD i default
    match passLoop ctx fuel i clone call.meta.argNames 0 call.args s with
    | (true, s') => againLoop ctx i fuel s'
    | (false, s') => s'

/-- The body of the per-call loop of `Minimize`: skip `no_minimize`
calls; otherwise run the argument minimizer with a fresh `tried_paths`
set, then (in the optimized variant only) the per-call property
minimizer. -/
def argPhaseStep (env : Env) (k0 : Int) (crash : Bool) (argOpt doProps : Bool)
    (fuel : Nat) (i : Nat) (st : Prog × Nat) : Prog × Nat :=
  if (st.1.calls.getD i default).meta.noMinimize then st
  else
    let s' := againLoop ⟨env, k0, crash, argOpt⟩ i fuel ⟨st.1, [], st.2⟩
    if doProps then minimizeCallProps env s'.os s'.p0 i k0
    else (s'.p0, s'.os)

/-- The per-call loop `for i := 0; i < len(p0.Calls); i++`.  The bound is
computed once: no argument-phase commit changes the number of calls (each
committed proposal replaces one call's arguments in place). -/
def argPhase (env : Env) (k0 : Int) (crash : Bool) (argOpt doProps : Bool)
    (fuel : Nat) (is : List Nat) (st : Prog × Nat) : Prog × Nat :=
  is.foldl (fun st i => argPhaseStep env k0 crash argOpt doProps fuel i st) st

/-- `Minimize` of the influence-optimized variant
(collect/syzkaller_influence): the initial index check (panic on a bad
index, modelled as `none`), `removeCalls_optimize`, `resetCallProps`, the
per-call argument loop with property minimization, and the final identity
check (panic modelled as `none`).  Returns the result triple and the
final influence matrix. -/
def Minimize (fuel : Nat) (env : Env) (ile : Bool) (mat : Mat) (p0 : Prog)
    (callIndex0 : Int) (crash : Bool) : Option (Prog × Int × Bool) × Mat :=
  if callIndex0 ≠ -1 ∧ (callIndex0 < 0 ∨ (p0.calls.length : Int) ≤ callIndex0) then
    (none, mat)
  else
    let name0 := if callIndex0 ≠ -1 then
        (p0.calls.getD callIndex0.toNat default).meta.name
      else ""
    let st := removeCalls_optimize env ile mat 0 p0 callIndex0 crash
    let (p2, os2) := resetCallProps env st.os st.p0 st.k0
    let (p3, _os3) := argPhase env st.k0 crash false true fuel
        (List.range p2.calls.length) (p2, os2)
    if st.k0 ≠ -1 then
      if st.k0 < 0 ∨ (p3.calls.length : Int) ≤ st.k0 ∨
          name0 ≠ (p3.calls.getD st.k0.toNat default).meta.name then
        (none, st.mat)
      else (some (p3, st.k0, st.flag), st.mat)
    else (some (p3, st.k0, st.flag), st.mat)

/-! ## The base variant (`removeCalls`, `removeUnrelatedCalls`)

The second source variant of the engine: its `Minimize` runs
`removeCalls` (suffix drop, a commented-out prefix drop, the
resource-closure drop, pairwise drop without influence learning) and the
argument loop with the whole-array step; the property-reset steps are
commented out there. -/

/-- Identity tokens used by `uses`: a result argument (Go compares the
`*ResultArg` pointers; the stable location `(call index, path)` has the
same identity semantics inside one program) or a filename string. -/
inductive Token where
  | resTok (loc : ResRef)
  | fnameTok (bytes : List Nat)
deriving DecidableEq

mutual

/-- All result-argument locations (with their producer references)
inside one argument tree, in pre-order. -/
def resultRefsIn : List Nat → Arg → List (List Nat × Option ResRef)
  | path, .pointerA _ _ (some a) => resultRefsIn (path ++ [0]) a
  | path, .groupA _ _ inner => resultRefsList path 0 inner
  | path, .unionA _ _ _ opt => resultRefsIn (path ++ [0]) opt
  | path, .resultA _ _ ref _ => [(path, ref)]
  | _, _ => []

def resultRefsList : List Nat → Nat → List Arg → List (List Nat × Option ResRef)
  | _, _, [] => []
  | path, k, a :: rest => resultRefsIn (path ++ [k]) a ++ resultRefsList path (k + 1) rest

end

/-- `bytes.TrimRight(data, "\x00")`. -/
def trimNulRight (l : List Nat) : List Nat :=
  (l.reverse.dropWhile (fun b => b == 0)).reverse

mutual

/-- The filename tokens of `uses`: the NUL-trimmed contents of every
non-out filename buffer in the tree. -/
def fnameTokensIn : Arg → List (List Nat)
  | .pointerA _ _ (some a) => fnameTokensIn a
  | .groupA _ _ inner => fnameTokensList inner
  | .unionA _ _ _ opt => fnameTokensIn opt
  | .dataA (.bufferT .filename _ _ _) dir orig curLen =>
    if dir ≠ .dirOut then [trimNulRight (orig.take curLen)] else []
  | _ => []

def fnameTokensList : List Arg → List (List Nat)
  | [] => []
  | a :: rest => fnameTokensIn a ++ fnameTokensList rest

end

/-- Result-argument locations of call `i`. -/
def callResultLocs (i : Nat) (c : Call) : List (ResRef × Option ResRef) :=
  (resultRefsList [] 0 c.args).map (fun e => ((i, e.1), e.2))

/-- All result-argument locations of a program. -/
def allResultLocs (p : Prog) : List (ResRef × Option ResRef) :=
  (List.range p.calls.length).flatMap
    (fun j => callResultLocs j (p.calls.getD j default))

/-- The consumers of a producer location: the derived form of the
`uses` reverse sets. -/
def consumersOf (p : Prog) (l : ResRef) : List ResRef :=
  ((allResultLocs p).filter (fun e => e.2 = some l)).map (fun e => e.1)

/-- `uses(call)`: every result argument of the call, its producer, its
consumers, plus the filename tokens. -/
def usesTok (p : Prog) (i : Nat) : List Token :=
  let c := p.calls.getD i default
  (callResultLocs i c).flatMap (fun e =>
    Token.resTok e.1 ::
      ((match e.2 with | some r => [Token.resTok r] | none => []) ++
        (consumersOf p e.1).map Token.resTok)) ++
  (fnameTokensList c.args).map Token.fnameTok

/-- `intersects(list, list1)`. -/
def intersectsTok (l l1 : List Token) : Bool :=
  l1.any (fun t => l.contains t)

/-- Set union on token lists (the Go code uses a map; duplicates are
skipped so that the growth check by length is faithful). -/
def tokUnion (used l : List Token) : List Token :=
  l.foldl (fun u t => if u.contains t then u else u ++ [t]) used

/-- One pass of `relatedCalls` over all call indices. -/
def relatedScan (p : Prog) : List Nat → List Nat × List Token → List Nat × List Token
  | [], st => st
  | i :: rest, (keep, used) =>
    if keep.contains i then relatedScan p rest (keep, used)
    else
      let used1 := usesTok p i
      if intersectsTok used used1 then
        relatedScan p rest (keep ++ [i], tokUnion used used1)
      else relatedScan p rest (keep, used)

/-- The outer fixpoint loop of `relatedCalls`: repeat passes until the
used-token set stops growing.  Fuel bounds the iterations; every
non-final pass grows the set by at least one token out of the finite
token population, so the supplied bound suffices. -/
def relatedLoop (p : Prog) : Nat → List Nat × List Token → List Nat × List Token
  | 0, st => st
  | fuel + 1, st =>
    let n := st.2.length
    let st' := relatedScan p (List.range p.calls.length) st
    if st'.2.length = n then st' else relatedLoop p fuel st'

/-- `relatedCalls(p0, callIndex0)`: the transitive closure of calls
sharing resources or filenames with the target call. -/
def relatedCalls (p : Prog) (k0 : Nat) : List Nat :=
  let bound := ((List.range p.calls.length).flatMap (usesTok p)).length + 1
  (relatedLoop p bound ([k0], usesTok p k0)).1

/-- The removal loop of `removeUnrelatedCalls`. -/
def remUnrelLoop (keep : List Nat) : Nat → Prog × Int → Prog × Int
  | 0, st => st
  | i + 1, (p, ci) =>
    if keep.contains i then remUnrelLoop keep i (p, ci)
    else remUnrelLoop keep i (p.RemoveCall i, if (i : Int) < ci then ci - 1 else ci)

/-- `removeUnrelatedCalls`: when at least 3 calls are unrelated to the
target's resource closure, propose removing all of them in one step. -/
def removeUnrelatedCalls (env : Env) (os : Nat) (p0 : Prog) (callIndex0 : Int) :
    Prog × Int × Nat :=
  let keep := relatedCalls p0 callIndex0.toNat
  if p0.calls.length - keep.length < 3 then (p0, callIndex0, os)
  else
    let (p, callIndex) := remUnrelLoop keep p0.calls.length (p0.Clone, callIndex0)
    let (ok, p', os') := askPred env os p callIndex
    if ok then (p', callIndex, os') else (p0, callIndex0, os')

/-- The suffix-drop stage of the base `removeCalls` (no learning flags). -/
def postStageBase (env : Env) (os : Nat) (p0 : Prog) (k0 : Int) : Prog × Nat :=
  let ids := removePostIds p0.calls.length k0
  if ids ≠ [] then
    let p := removeByIdsDesc p0.Clone ids
    let (ok, p', os') := askPred env os p k0
    if ok then (p', os') else (p0, os')
  else (p0, os)

/-- One pairwise-removal iteration of the base variant (no learning). -/
def pairwiseStepBase (env : Env) (i : Nat) (st : Prog × Int × Nat) : Prog × Int × Nat :=
  if (i : Int) = st.2.1 then st
  else
    let callIndex := if (i : Int) < st.2.1 then st.2.1 - 1 else st.2.1
    let p := st.1.Clone.RemoveCall i
    let (ok, p', os') := askPred env st.2.2 p callIndex
    if ok then (p', callIndex, os') else (st.1, st.2.1, os')

/-- The base pairwise loop. -/
def pairwiseLoopBase (env : Env) : Nat → Prog × Int × Nat → Prog × Int × Nat
  | 0, st => st
  | c + 1, st => pairwiseLoopBase env c (pairwiseStepBase env c st)

/-- `removeCalls` of the base variant: the influence BFS runs (its
`remove_front_ids` output is computed but the prefix-drop stage is
commented out in the source), then the suffix drop, the resource-closure
drop (for `callIndex0 != -1`) and the pairwise loop. -/
def removeCallsBase (env : Env) (mat : Mat) (os : Nat) (p0 : Prog)
    (callIndex0 : Int) (crash : Bool) : Prog × Int × Nat :=
  let _front := removeFrontIds (edgeFn mat p0.calls) callIndex0.toNat
  let (p1, os1) := postStageBase env os p0 callIndex0
  let (p2, k2, os2) :=
    if callIndex0 ≠ -1 then removeUnrelatedCalls env os1 p1 callIndex0
    else (p1, callIndex0, os1)
  pairwiseLoopBase env p2.calls.length (p2, k2, os2)

/-- `Minimize` of the base variant: index check, `removeCalls`, the
argument loop (whole-array variant, no property minimization — both
property steps are commented out in this source), final identity check. -/
def MinimizeBase (fuel : Nat) (env : Env) (mat : Mat) (p0 : Prog)
    (callIndex0 : Int) (crash : Bool) : Option (Prog × Int) :=
  if callIndex0 ≠ -1 ∧ (callIndex0 < 0 ∨ (p0.calls.length : Int) ≤ callIndex0) then
    none
  else
    let name0 := if callIndex0 ≠ -1 then
        (p0.calls.getD callIndex0.toNat default).meta.name
      else ""
    let (p1, k1, os1) := removeCallsBase env mat 0 p0 callIndex0 crash
    let (p3, _os3) := argPhase env k1 crash true false fuel
        (List.range p1.calls.length) (p1, os1)
    if k1 ≠ -1 then
      if k1 < 0 ∨ (p3.calls.length : Int) ≤ k1 ∨
          name0 ≠ (p3.calls.getD k1.toNat default).meta.name then none
      else some (p3, k1)
    else some (p3, k1)

/-! ## Claims -/

/-- C10: `IntQueue.Dequeue` accesses `items[0]` without handling the
empty case, so it is well-defined (returns a value rather than crashing)
exactly on non-empty queues; under the loop guard `queue.Length() > 0`
used by the influence BFS of `removeCalls` / `removeCalls_optimize` the
dequeue always succeeds, so the out-of-range branch of the loop is
unreachable: every loop iteration with a non-empty queue steps through
the successful-dequeue branch. -/
theorem c10_dequeue_empty_guard :
    (∀ q : IntQueue, q.Dequeue = none ↔ q.items = []) ∧
    (∀ q : IntQueue, 0 < q.Length → ∃ x q', q.Dequeue = some (x, q')) ∧
    (∀ (edge : Nat → Nat → Bool) (qmap : Nat → Bool) (fuel : Nat)
        (q : IntQueue) (inf : Nat → Bool), 0 < q.Length →
      ∃ id q', q.Dequeue = some (id, q') ∧
        bfsLoop edge qmap (fuel + 1) q inf =
          bfsLoop edge qmap fuel
            (enqueueAll q' ((innerPreds edge id.toNat).filter (fun j => !qmap j)))
            (fun j => inf j || (innerPreds edge id.toNat).contains j)) := by
  refine ⟨?_, ?_, ?_⟩
  · intro q
    match q with
    | ⟨[]⟩ => simp [IntQueue.Dequeue]
    | ⟨x :: rest⟩ => simp [IntQueue.Dequeue]
  · intro q hq
    match q with
    | ⟨[]⟩ => simp [IntQueue.Length] at hq
    | ⟨x :: rest⟩ => exact ⟨x, ⟨rest⟩, rfl⟩
  · intro edge qmap fuel q inf hq
    match q with
    | ⟨[]⟩ => simp [IntQueue.Length] at hq
    | ⟨x :: rest⟩ =>
      refine ⟨x, ⟨rest⟩, rfl, ?_⟩
      simp only [bfsLoop, hq, if_pos]
      rfl

/-- Witness for C10 at a concrete queue. -/
theorem c10_dequeue_empty_guard_witness :
    0 < (IntQueue.mk [5]).Length ∧
      ∃ x q', (IntQueue.mk [5]).Dequeue = some (x, q') :=
  ⟨by decide, c10_dequeue_empty_guard.2.1 ⟨[5]⟩ (by decide)⟩

/-- C9: a buffer argument with direction `Out` is rejected immediately by
`BufferType.minimize`: the result is `false`, the argument is returned
unchanged (blob and filename alike — the direction test precedes the kind
switch), and the state — in particular the oracle invocation counter — is
untouched. -/
theorem c9_out_buffers_untouched (ctx : ACtx) (plug : Arg → Prog)
    (ty : ArgType) (bk : BufKind) (rb : Nat) (noZ varlen : Bool)
    (orig : List Nat) (curLen : Nat) (path : String) (s : AState) :
    bufferMin ctx plug ty .dirOut bk rb noZ varlen orig curLen path s =
      (false, Arg.dataA ty .dirOut orig curLen, s) := by
  simp [bufferMin]

/-- Witness for C9 at a concrete out-direction blob argument. -/
theorem c9_out_buffers_untouched_witness :
    bufferMin ⟨⟨fun _ _ _ => true, fun _ => false, fun _ => []⟩, 0, false, false⟩
        (fun _ => { calls := [] }) (.bufferT .blobRand 0 false true) .dirOut
        .blobRand 0 false true [1, 2, 3] 3 "-x" ⟨{ calls := [] }, [], 0⟩ =
      (false, Arg.dataA (.bufferT .blobRand 0 false true) .dirOut [1, 2, 3] 3,
        ⟨{ calls := [] }, [], 0⟩) :=
  c9_out_buffers_untouched ⟨⟨fun _ _ _ => true, fun _ => false, fun _ => []⟩, 0, false, false⟩
    (fun _ => { calls := [] }) (.bufferT .blobRand 0 false true) .blobRand 0
    false true [1, 2, 3] 3 "-x" ⟨{ calls := [] }, [], 0⟩

/-- The buffer type of the C7 scenario: a range blob with
`RangeBegin = 10`. -/
def c7Ty : ArgType := .bufferT .blobRange 10 false true

/-- The call metadata of the C7 scenario. -/
def c7Meta : Meta :=
  { name := "w", id := 0, noMinimize := false, argNames := ["buf"] }

/-- A one-call program holding the C7 buffer argument. -/
def c7ProgOf (a : Arg) : Prog :=
  { calls := [{ meta := c7Meta, args := [a] }] }

/-- Current length of the C7 buffer inside a proposal. -/
def c7LenOf (p : Prog) : Nat :=
  match (p.calls.getD 0 default).args.getD 0 default with
  | .dataA _ _ o n => min n o.length
  | _ => 0

/-- The C7 oracle: accepts a proposal iff its buffer is at least 40 bytes
long. -/
def c7Env : Env :=
  { ok := fun _ p _ => decide (40 ≤ c7LenOf p)
    execStat := fun _ => false
    hash := fun _ => [] }

/-- C7: on a blob of length 100 with `RangeBegin = 10`, under an oracle
accepting exactly the proposals of length ≥ 40, the halving search of
`BufferType.minimize` terminates and commits a buffer of length exactly
40 (11 oracle probes are consumed). -/
theorem c7_halving_commits_40 :
    (fun r => (r.1, (match r.2.1 with | .dataA _ _ _ n => n | _ => 0),
        c7LenOf r.2.2.p0, r.2.2.os))
      (bufferMin ⟨c7Env, 0, false, false⟩ c7ProgOf c7Ty .dirIn .blobRange 10
        false true (List.replicate 100 7) 100 "-buf"
        ⟨c7ProgOf (.dataA c7Ty .dirIn (List.replicate 100 7) 100), [], 0⟩) =
      (true, 40, 40, 11) := by
  rfl

/-- The element loop of `ArrayType.minimize` leaves the element count
unchanged, or removes exactly one element — and the latter only outside
crash mode and only when the kind allows it (`RandLen`, or `RangeLen`
with the current length strictly above `RangeBegin`). -/
theorem arrayLoop_length (ctx : ACtx) :
    ∀ (fuel : Nat) (plugG : List Arg → Prog) (kind : ArrayKind) (rb : Nat)
      (cur : List Arg) (c : Nat) (path : String) (s : AState),
      (arrayLoop ctx fuel plugG kind rb cur c path s).2.1.length = cur.length ∨
      ((arrayLoop ctx fuel plugG kind rb cur c path s).2.1.length + 1 = cur.length ∧
        ctx.crash = false ∧
        (kind = .randLen ∨ (kind = .rangeLen ∧ rb < cur.length))) := by
  intro fuel
  induction fuel with
  | zero => intro plugG kind rb cur c path s; left; rfl
  | succ fuel ih =>
    intro plugG kind rb cur c path s
    match c with
    | 0 => left; rfl
    | i + 1 =>
      simp only [arrayLoop]
      split
      · next hguard =>
        obtain ⟨hcr, _, hkind⟩ := hguard
        split
        · next =>
          by_cases hi : i < cur.length
          · right
            refine ⟨?_, hcr, hkind⟩
            simp [List.length_eraseIdx, hi]
            omega
          · left
            simp [List.length_eraseIdx, hi]
        · next =>
          by_cases hi : i < cur.length
          · right
            refine ⟨?_, hcr, hkind⟩
            simp [List.length_eraseIdx, hi]
            omega
          · left
            simp [List.length_eraseIdx, hi]
      · next =>
        rcases hdo : doArg ctx fuel (fun x => plugG (cur.set i x))
            (cur.getD i default) "" (path ++ "-" ++ toString i) s with ⟨r, e', s'⟩
        match r with
        | true =>
          simp only [hdo]
          left
          simp
        | false =>
          simp only [hdo]
          rcases ih plugG kind rb (cur.set i e') i path s' with h | ⟨h1, h2, h3⟩
          · left
            rw [h]
            simp
          · right
            refine ⟨?_, h2, ?_⟩
            · rw [h1]
              simp
            · rcases h3 with h3 | ⟨h3, h4⟩
              · exact Or.inl h3
              · exact Or.inr ⟨h3, by simpa using h4⟩

/-- C6: array shrinking keeps the low bound.  The array branch of the
argument minimizer returns a group of the same array type whose length is
unchanged, or shorter by exactly one element — only when the kind is
`RandLen`, or `RangeLen` with current length strictly above `RangeBegin` —
or emptied wholesale, which is proposed only by the whole-array variant
when the array has at least 3 elements, `RangeBegin = 0` and the
whole-array path was not tried yet.  Consequently a `RangeLen` array at or
above its low bound never drops below it. -/
theorem c6_array_respects_low_bound (ctx : ACtx) (fuel : Nat)
    (plug : Arg → Prog) (kind : ArrayKind) (rb : Nat) (dir : Dir)
    (inner : List Arg) (path : String) (s : AState) :
    ∃ r inner' s',
      typeMin ctx fuel plug (.groupA (.arrayT kind rb) dir inner) path s =
        (r, .groupA (.arrayT kind rb) dir inner', s') ∧
      (inner'.length = inner.length ∨
        (inner'.length + 1 = inner.length ∧ ctx.crash = false ∧
          (kind = .randLen ∨ (kind = .rangeLen ∧ rb < inner.length))) ∨
        (inner' = [] ∧ ctx.argOpt = true ∧ 3 ≤ inner.length ∧ rb = 0 ∧
          s.tried.contains (path ++ "-all") = false)) ∧
      (kind = .rangeLen → rb ≤ inner.length → rb ≤ inner'.length) := by
  match fuel with
  | 0 =>
    exact ⟨false, inner, s, rfl, Or.inl rfl, fun _ h => h⟩
  | fuel + 1 =>
    simp only [typeMin]
    split
    · next hguard =>
      obtain ⟨hopt, hlen, hrb, htried⟩ := hguard
      split
      · next =>
        refine ⟨true, [], _, rfl, Or.inr (Or.inr ⟨rfl, hopt, hlen, hrb, htried⟩), ?_⟩
        intro _ _
        simp [hrb]
      · next =>
        refine ⟨true, [], _, rfl, Or.inr (Or.inr ⟨rfl, hopt, hlen, hrb, htried⟩), ?_⟩
        intro _ _
        simp [hrb]
    · next =>
      rcases hal : arrayLoop ctx fuel
          (fun l => plug (.groupA (.arrayT kind rb) dir l)) kind rb inner
          inner.length path s with ⟨r, l', s'⟩
      refine ⟨r, l', s', by simp [hal], ?_, ?_⟩
      · have := arrayLoop_length ctx fuel
          (fun l => plug (.groupA (.arrayT kind rb) dir l)) kind rb inner
          inner.length path s
        rw [hal] at this
        dsimp only at this
        rcases this with h | ⟨h1, h2, h3⟩
        · exact Or.inl h
        · exact Or.inr (Or.inl ⟨h1, h2, h3⟩)
      · have := arrayLoop_length ctx fuel
          (fun l => plug (.groupA (.arrayT kind rb) dir l)) kind rb inner
          inner.length path s
        rw [hal] at this
        dsimp only at this
        intro hk hle
        rcases this with h | ⟨h1, h2, h3⟩
        · omega
        · rcases h3 with h3 | ⟨_, h4⟩
          · rw [hk] at h3
            exact absurd h3 (by simp)
          · omega

/-- Witness for C6 at a concrete 2-element `RangeLen` array with
`RangeBegin = 2` (at the low bound, so no removal may fire). -/
theorem c6_array_respects_low_bound_witness :
    ∃ r inner' s',
      typeMin ⟨⟨fun _ _ _ => true, fun _ => false, fun _ => []⟩, 0, false, true⟩ 3
          (fun _ => { calls := [] })
          (.groupA (.arrayT .rangeLen 2) .dirIn
            [.constA .common .dirIn 1, .constA .common .dirIn 2]) "-a"
          ⟨{ calls := [] }, [], 0⟩ =
        (r, .groupA (.arrayT .rangeLen 2) .dirIn inner', s') ∧
      (inner'.length = 2 ∨
        (inner'.length + 1 = 2 ∧ false = false ∧
          (ArrayKind.rangeLen = .randLen ∨ (ArrayKind.rangeLen = .rangeLen ∧ 2 < 2))) ∨
        (inner' = [] ∧ true = true ∧ 3 ≤ 2 ∧ 2 = 0 ∧
          ([] : List String).contains ("-a" ++ "-all") = false)) ∧
      (ArrayKind.rangeLen = .rangeLen → 2 ≤ 2 → 2 ≤ inner'.length) := by
  have h := c6_array_respects_low_bound
    ⟨⟨fun _ _ _ => true, fun _ => false, fun _ => []⟩, 0, false, true⟩ 3
    (fun _ => { calls := [] }) .rangeLen 2 .dirIn
    [.constA .common .dirIn 1, .constA .common .dirIn 2] "-a" ⟨{ calls := [] }, [], 0⟩
  simpa using h

/-- The array type of the C3 counterexample: `RandLen`, `RangeBegin = 0`. -/
def c3ArrTy : ArgType := .arrayT .randLen 0

/-- A crash-mode 3-element array argument. -/
def c3Arr : Arg :=
  .groupA c3ArrTy .dirIn
    [.constA .common .dirIn 1, .constA .common .dirIn 2, .constA .common .dirIn 3]

/-- A one-call program holding the C3 array. -/
def c3ProgOf (a : Arg) : Prog :=
  { calls := [{ meta := c7Meta, args := [a] }] }

/-- Crash-mode context over an always-accepting oracle, with the
whole-array variant of `ArrayType.minimize` in force. -/
def c3Ctx : ACtx :=
  ⟨⟨fun _ _ _ => true, fun _ => false, fun _ => []⟩, -1, true, true⟩

/-- C3 counterexample: in crash mode, the whole-array emptying step of
the optimized `ArrayType.minimize` (the variant with the `-all` path) is
not guarded by the crash flag: on a 3-element `RandLen` array it removes
all elements and, with an accepting oracle, commits the emptied baseline.
The claim "the argument-level minimizer performs no array element removal
[in crash mode]" is therefore false on this variant. -/
theorem c3_crash_counterexample :
    c3Ctx.crash = true ∧
    (match c3Arr with | .groupA _ _ l => l.length | _ => 99) = 3 ∧
    (fun r =>
      ((match r.2.1 with | .groupA _ _ l => l.length | _ => 99),
        (match (r.2.2.p0.calls.getD 0 default).args.getD 0 default with
          | .groupA _ _ l => l.length | _ => 99)))
      (typeMin c3Ctx 1 c3ProgOf c3Arr "-a" ⟨c3ProgOf c3Arr, [], 0⟩) = (0, 0) := by
  refine ⟨rfl, rfl, ?_⟩
  rfl

/-- C3 (amended): in crash mode, integer/flag shrinking is disabled
(`minimizeInt` returns `false` leaving everything unchanged),
resource-reference clearing is disabled (`ResourceType.minimize`
likewise), individual array element removal is disabled (the element loop
preserves the element count), and the blob halving loop stops right after
the first rejected probe, restoring the length and consuming no further
oracle calls.  (The whole-array emptying step of the optimized variant
remains enabled in crash mode — see the counterexample.) -/
theorem c3_crash_mode_shrinks_disabled (ctx : ACtx) :
    (∀ (plug : Arg → Prog) (ty : ArgType) (dir : Dir) (v dv : Nat)
        (path : String) (s : AState), ctx.crash = true →
      minimizeIntStep ctx plug ty dir v dv path s = (false, .constA ty dir v, s)) ∧
    (∀ (plug : Arg → Prog) (ty : ArgType) (dir : Dir) (res : Option ResRef)
        (v : Nat) (path : String) (s : AState), ctx.crash = true →
      resourceMin ctx plug ty dir res v path s = (false, .resultA ty dir res v, s)) ∧
    (∀ (fuel : Nat) (plugG : List Arg → Prog) (kind : ArrayKind) (rb : Nat)
        (cur : List Arg) (c : Nat) (path : String) (s : AState), ctx.crash = true →
      (arrayLoop ctx fuel plugG kind rb cur c path s).2.1.length = cur.length) ∧
    (∀ (plugLen : Nat → Prog) (minLen fuel curLen step : Nat) (s : AState),
        ctx.crash = true → minLen < curLen → 0 < step →
        (minLen : Int) ≤ (curLen : Int) - (step : Int) →
        ctx.env.ok s.os (plugLen (curLen - step)) ctx.k0 = false →
      blobLoop ctx plugLen minLen (fuel + 1) curLen step s =
        (curLen, { s with os := s.os + 1 })) := by
  refine ⟨?_, ?_, ?_, ?_⟩
  · intro plug ty dir v dv path s hcr
    simp [minimizeIntStep, hcr]
  · intro plug ty dir res v path s hcr
    match res with
    | none => simp [resourceMin, hcr]
    | some r0 => simp [resourceMin, hcr]
  · intro fuel plugG kind rb cur c path s hcr
    rcases arrayLoop_length ctx fuel plugG kind rb cur c path s with h | ⟨_, h2, _⟩
    · exact h
    · rw [hcr] at h2
      cases h2
  · intro plugLen minLen fuel curLen step s hcr h1 h2 h3 h4
    simp only [blobLoop, h1, h2, h3, and_self, if_pos, if_true]
    simp [askPred, sanitizeFix, h4, hcr]

/-- Crash-mode context over an always-rejecting oracle. -/
def c3RejCtx : ACtx :=
  ⟨⟨fun _ _ _ => false, fun _ => false, fun _ => []⟩, -1, true, true⟩

/-- Witness for C3 (amended) at crash-mode instances of two conjuncts. -/
theorem c3_crash_mode_shrinks_disabled_witness :
    minimizeIntStep c3RejCtx c3ProgOf .common .dirIn 5 0 "-v" ⟨c3ProgOf c3Arr, [], 0⟩ =
      (false, .constA .common .dirIn 5, ⟨c3ProgOf c3Arr, [], 0⟩) ∧
    blobLoop c3RejCtx (fun n => c3ProgOf (.dataA c7Ty .dirIn [1, 2, 3, 4] n)) 0 5 4 4
        ⟨c3ProgOf c3Arr, [], 0⟩ =
      (4, ⟨c3ProgOf c3Arr, [], 1⟩) := by
  constructor
  · exact (c3_crash_mode_shrinks_disabled c3RejCtx).1 c3ProgOf .common .dirIn 5 0 "-v"
      ⟨c3ProgOf c3Arr, [], 0⟩ rfl
  · exact (c3_crash_mode_shrinks_disabled c3RejCtx).2.2.2
      (fun n => c3ProgOf (.dataA c7Ty .dirIn [1, 2, 3, 4] n)) 0 4 4 4
      ⟨c3ProgOf c3Arr, [], 0⟩ rfl (by decide) (by decide) (by decide) (by decide)

/-- The proposal built by one pairwise-removal iteration: clone, remove
call `i`, and flag the clone for coverage-hash collection when learning
is enabled. -/
def pwProposal (ile : Bool) (i : Nat) (st : CState) : Prog :=
  let p := st.p0.Clone.RemoveCall i
  if ile then { p with needUpdate := true } else p

/-- The adjusted target index used by that iteration. -/
def pwIndex (i : Nat) (st : CState) : Int :=
  if (i : Int) < st.k0 then st.k0 - 1 else st.k0

/-- A pairwise step keeps an already-set `influence_update_flag`. -/
theorem pairwiseStep_flag_mono (env : Env) (ile : Bool) (i : Nat) (st : CState)
    (h : st.flag = true) : (pairwiseStep env ile i st).flag = true := by
  simp only [pairwiseStep]
  split_ifs <;> simp [h]

/-- The pairwise loop keeps an already-set `influence_update_flag`. -/
theorem pairwiseLoop_flag_mono (env : Env) (ile : Bool) :
    ∀ (c : Nat) (st : CState), st.flag = true →
      (pairwiseLoop env ile c st).flag = true := by
  intro c
  induction c with
  | zero => intro st h; exact h
  | succ c ih =>
    intro st h
    exact ih _ (pairwiseStep_flag_mono env ile c st h)

/-- The call metadata used by the C4 scenario. -/
def c4Meta (n : String) (id : Nat) : Meta :=
  { name := n, id := id, noMinimize := false, argNames := [] }

/-- Scenario 3 of §8: `P0 = [A, B]`, `k0 = 1`, with pre-removal coverage
hash `0x1111` recorded for `B`. -/
def c4Prog : Prog :=
  { calls := [{ meta := c4Meta "A" 0 }, { meta := c4Meta "B" 1 }],
    covHash := [0, 0x1111] }

/-- The scenario-3 oracle: rejects every proposal, reports completed
execution and post-removal hash `0x2222` at position 0. -/
def c4Env : Env :=
  { ok := fun _ _ _ => false, execStat := fun _ => true, hash := fun _ => [0x2222] }

/-- C4: in the pairwise-removal stage, whenever the oracle rejects the
removal of call `i`, learning is enabled and the telemetry reports a
completed execution, `i` is not the last call, the post-removal hash at
position `i` and the pre-removal hash at position `i+1` are both nonzero
and differ, and the influence-matrix entry for the syscall ids at
positions `i` and `i+1` is `0`, then the step sets that entry to `1` and
raises the influence-learned flag; in every other case the step leaves the
matrix unchanged (in particular, removal of the last call never updates
it, since `i + 1 < |P0|` fails there).  The flag, once raised, survives
the rest of the loop, and on the concrete scenario-3 run `Minimize`
returns `(P0, 1, influence_learned = true)` with `M[A,B]` set to `1`. -/
theorem c4_pairwise_influence_learning :
    (∀ (env : Env) (ile : Bool) (i : Nat) (st : CState) (ok : Bool) (p' : Prog)
        (os' : Nat), askPred env st.os (pwProposal ile i st) (pwIndex i st) = (ok, p', os') →
      (((i : Int) ≠ st.k0 ∧ ok = false ∧ ile = true ∧ p'.execStatus = true ∧
          i < p'.calls.length ∧ i + 1 < st.p0.calls.length ∧
          p'.covHash.getD i 0 ≠ st.p0.covHash.getD (i + 1) 0 ∧
          p'.covHash.getD i 0 ≠ 0 ∧ st.p0.covHash.getD (i + 1) 0 ≠ 0 ∧
          st.mat (st.p0.calls.getD i default).meta.id
            (st.p0.calls.getD (i + 1) default).meta.id = 0) →
        ((pairwiseStep env ile i st).mat (st.p0.calls.getD i default).meta.id
            (st.p0.calls.getD (i + 1) default).meta.id = 1 ∧
          (pairwiseStep env ile i st).flag = true)) ∧
      (¬((i : Int) ≠ st.k0 ∧ ok = false ∧ ile = true ∧ p'.execStatus = true ∧
          i < p'.calls.length ∧ i + 1 < st.p0.calls.length ∧
          p'.covHash.getD i 0 ≠ st.p0.covHash.getD (i + 1) 0 ∧
          p'.covHash.getD i 0 ≠ 0 ∧ st.p0.covHash.getD (i + 1) 0 ≠ 0 ∧
          st.mat (st.p0.calls.getD i default).meta.id
            (st.p0.calls.getD (i + 1) default).meta.id = 0) →
        (pairwiseStep env ile i st).mat = st.mat)) ∧
    (∀ (env : Env) (ile : Bool) (c : Nat) (st : CState), st.flag = true →
      (pairwiseLoop env ile c st).flag = true) ∧
    ((Minimize 1 c4Env true (fun _ _ => 0) c4Prog 1 false).1.map
        (fun t => (t.1.calls.map (fun c => c.meta.name), t.1.covHash, t.2.1, t.2.2)) =
      some (["A", "B"], [0, 0x1111], 1, true) ∧
      (Minimize 1 c4Env true (fun _ _ => 0) c4Prog 1 false).2 0 1 = 1) := by
  refine ⟨?_, pairwiseLoop_flag_mono, by constructor <;> rfl⟩
  intro env ile i st ok p' os' heq
  have hstep : ∀ (hne : (i : Int) ≠ st.k0) (hok : ok = false),
      pairwiseStep env ile i st =
        (if ile = true ∧ p'.execStatus = true ∧ i < p'.calls.length ∧
            i + 1 < st.p0.calls.length ∧
            p'.covHash.getD i 0 ≠ st.p0.covHash.getD (i + 1) 0 ∧
            p'.covHash.getD i 0 ≠ 0 ∧ st.p0.covHash.getD (i + 1) 0 ≠ 0 ∧
            st.mat (st.p0.calls.getD i default).meta.id
              (st.p0.calls.getD (i + 1) default).meta.id = 0 then
          { st with
              mat := matSet st.mat (st.p0.calls.getD i default).meta.id
                (st.p0.calls.getD (i + 1) default).meta.id 1,
              flag := true, os := os' }
        else { st with os := os' }) := by
    intro hne hok
    subst hok
    simp only [pwProposal, pwIndex] at heq
    simp only [pairwiseStep]
    rw [if_neg hne, heq]
    dsimp only
    rw [if_neg Bool.false_ne_true]
  constructor
  · rintro ⟨hne, hok, hile, hex, hl1, hl2, hh1, hh2, hh3, hmat⟩
    rw [hstep hne hok]
    rw [if_pos ⟨hile, hex, hl1, hl2, hh1, hh2, hh3, hmat⟩]
    constructor
    · show matSet st.mat _ _ 1 _ _ = 1
      simp [matSet]
    · rfl
  · intro hnot
    by_cases hne : (i : Int) = st.k0
    · simp only [pairwiseStep]
      rw [if_pos hne]
    · match ok, heq with
      | true, heq =>
        simp only [pwProposal, pwIndex] at heq
        simp only [pairwiseStep]
        rw [if_neg hne, heq]
        dsimp only
        rw [if_pos rfl]
      | false, heq =>
        rw [hstep hne rfl]
        by_cases hC : ile = true ∧ p'.execStatus = true ∧ i < p'.calls.length ∧
            i + 1 < st.p0.calls.length ∧
            p'.covHash.getD i 0 ≠ st.p0.covHash.getD (i + 1) 0 ∧
            p'.covHash.getD i 0 ≠ 0 ∧ st.p0.covHash.getD (i + 1) 0 ≠ 0 ∧
            st.mat (st.p0.calls.getD i default).meta.id
              (st.p0.calls.getD (i + 1) default).meta.id = 0
        · obtain ⟨hC1, hC2, hC3, hC4, hC5, hC6, hC7, hC8⟩ := hC
          exact absurd ⟨hne, rfl, hC1, hC2, hC3, hC4, hC5, hC6, hC7, hC8⟩ hnot
        · rw [if_neg hC]

/-- The telemetry-updated rejected proposal of the C4 witness. -/
def c4Prop : Prog :=
  { calls := [{ meta := c4Meta "B" 1 }], covHash := [0x2222],
    execStatus := true, needUpdate := true }

/-- Witness for C4: the learning conditions hold at a concrete state and
the theorem's step conclusion applies there. -/
theorem c4_pairwise_influence_learning_witness :
    ∃ ok p' os',
      askPred c4Env 0 (pwProposal true 0 ⟨c4Prog, 1, fun _ _ => 0, 0, false⟩)
          (pwIndex 0 ⟨c4Prog, 1, fun _ _ => 0, 0, false⟩) = (ok, p', os') ∧
      (pairwiseStep c4Env true 0 ⟨c4Prog, 1, fun _ _ => 0, 0, false⟩).mat 0 1 = 1 ∧
      (pairwiseStep c4Env true 0 ⟨c4Prog, 1, fun _ _ => 0, 0, false⟩).flag = true := by
  refine ⟨false, c4Prop, 1, by rfl, ?_⟩
  have h := (c4_pairwise_influence_learning.1 c4Env true 0
    ⟨c4Prog, 1, fun _ _ => 0, 0, false⟩ false c4Prop 1 (by rfl)).1
    (by refine ⟨by decide, rfl, rfl, rfl, ?_, ?_, ?_, ?_, ?_, ?_⟩ <;> decide)
  exact h

/-- An always-accepting oracle with empty telemetry. -/
def c1Env : Env :=
  { ok := fun _ _ _ => true, execStat := fun _ => false, hash := fun _ => [] }

/-- A three-call program whose middle call carries the `no_minimize`
attribute. -/
def c1Prog : Prog :=
  { calls := [
      { meta := { name := "A", id := 0, noMinimize := false, argNames := [] } },
      { meta := { name := "B", id := 1, noMinimize := true, argNames := [] } },
      { meta := { name := "C", id := 2, noMinimize := false, argNames := [] } }] }

/-- C1 counterexample: the call-removal stages of `Minimize` do not
consult the `no_minimize` attribute.  With target index 0 and an
always-accepting oracle, the pairwise stage removes the `no_minimize`
call `B` (and `C`), so the claim that no such call is ever removed is
false. -/
theorem c1_counterexample :
    (c1Prog.calls.getD 1 default).meta.noMinimize = true ∧
    (Minimize 1 c1Env false (fun _ _ => 0) c1Prog 0 false).1.map
        (fun t => (t.1.calls.map (fun c => c.meta.name), t.2.1)) =
      some (["A"], 0) := by
  constructor <;> rfl

/-- C1 (amended): the per-call loop of `Minimize` skips `no_minimize`
calls entirely — neither their arguments nor their properties are ever
mutated by the argument-level phase; the call-removal stages, however,
may delete a `no_minimize` call, and the bulk property reset touches all
calls. -/
theorem c1_nominimize_skipped_by_arg_phase (env : Env) (k0 : Int)
    (crash argOpt doProps : Bool) (fuel i : Nat) (st : Prog × Nat)
    (h : (st.1.calls.getD i default).meta.noMinimize = true) :
    argPhaseStep env k0 crash argOpt doProps fuel i st = st := by
  simp only [argPhaseStep]
  rw [if_pos h]

/-- Witness for C1 (amended): the argument phase at the `no_minimize`
call of the counterexample program leaves the state unchanged. -/
theorem c1_nominimize_skipped_by_arg_phase_witness :
    argPhaseStep c1Env 0 false false true 5 1 (c1Prog, 0) = (c1Prog, 0) :=
  c1_nominimize_skipped_by_arg_phase c1Env 0 false false true 5 1 (c1Prog, 0) rfl

/-! ## List lemmas about back-to-front index removal -/

theorem eraseIdx_append_left {α} (l₂ : List α) :
    ∀ (l₁ : List α) (i : Nat), i < l₁.length →
      (l₁ ++ l₂).eraseIdx i = l₁.eraseIdx i ++ l₂ := by
  intro l₁
  induction l₁ with
  | nil => intro i h; simp at h
  | cons a l ih =>
    intro i h
    match i with
    | 0 => simp [List.eraseIdx]
    | i + 1 =>
      simp only [List.cons_append, List.eraseIdx, List.cons.injEq, true_and]
      exact ih i (by simpa using h)

theorem eraseIdx_append_last {α} (a : α) :
    ∀ (l : List α), (l ++ [a]).eraseIdx l.length = l := by
  intro l
  induction l with
  | nil => rfl
  | cons b l ih => simpa [List.eraseIdx] using ih

theorem getD_eraseIdx_lt {α} (d : α) :
    ∀ (l : List α) (j i : Nat), i < j →
      (l.eraseIdx j).getD i d = l.getD i d := by
  intro l
  induction l with
  | nil => intro j i h; simp
  | cons a l ih =>
    intro j i h
    match j, i with
    | j + 1, 0 => simp [List.eraseIdx]
    | j + 1, i + 1 =>
      simp only [List.eraseIdx, List.getD_cons_succ]
      exact ih j i (by omega)

theorem getD_eraseIdx_shift {α} (d : α) :
    ∀ (l : List α) (j i : Nat), j < l.length → j < i →
      (l.eraseIdx j).getD (i - 1) d = l.getD i d := by
  intro l
  induction l with
  | nil => intro j i h; simp at h
  | cons a l ih =>
    intro j i hj hi
    match j, i with
    | 0, i + 1 => simp [List.eraseIdx]
    | j + 1, i + 1 =>
      simp only [List.eraseIdx]
      match i, hi with
      | i + 1, _ =>
        have := ih j (i + 1) (by simpa using hj) (by omega)
        simpa using this

theorem length_eraseIdx_foldr {α} :
    ∀ (ids : List Nat) (l : List α), List.Pairwise (· < ·) ids →
      (∀ i ∈ ids, i < l.length) →
      (ids.foldr (fun i acc => acc.eraseIdx i) l).length = l.length - ids.length := by
  intro ids
  induction ids with
  | nil => intro l _ _; rfl
  | cons i rest ih =>
    intro l hp hb
    have hrp : List.Pairwise (· < ·) rest := hp.of_cons
    have hri : ∀ x ∈ rest, i < x := fun x hx => List.rel_of_pairwise_cons hp hx
    have hrb : ∀ x ∈ rest, x < l.length := fun x hx => hb x (List.mem_cons_of_mem i hx)
    have hlen : (rest.foldr (fun i acc => acc.eraseIdx i) l).length =
        l.length - rest.length := ih l hrp hrb
    have hcard : rest.length ≤ l.length - i - 1 := by
      have hnd : rest.Nodup := hrp.imp Nat.ne_of_lt
      have hsub : rest.toFinset ⊆ Finset.Ioo i l.length := by
        intro x hx
        rw [List.mem_toFinset] at hx
        exact Finset.mem_Ioo.mpr ⟨hri x hx, hrb x hx⟩
      have := Finset.card_le_card hsub
      rw [Nat.card_Ioo] at this
      rwa [List.toFinset_card_of_nodup hnd] at this
    have hi : i < l.length := hb i (List.mem_cons_self i rest)
    simp only [List.foldr_cons]
    rw [List.length_eraseIdx]
    rw [hlen]
    have : i < l.length - rest.length := by omega
    simp [this, hlen]
    omega

theorem getD_eraseIdx_foldr_above {α} (d : α) :
    ∀ (ids : List Nat) (l : List α) (k : Nat), (∀ i ∈ ids, k < i) →
      (ids.foldr (fun i acc => acc.eraseIdx i) l).getD k d = l.getD k d := by
  intro ids
  induction ids with
  | nil => intro l k _; rfl
  | cons i rest ih =>
    intro l k hk
    simp only [List.foldr_cons]
    rw [getD_eraseIdx_lt d _ i k (hk i (List.mem_cons_self i rest))]
    exact ih l k (fun x hx => hk x (List.mem_cons_of_mem i hx))

theorem getD_eraseIdx_foldr_front {α} (d : α) :
    ∀ (ids : List Nat) (l : List α) (k : Nat), List.Pairwise (· < ·) ids →
      (∀ i ∈ ids, i < k) → k < l.length →
      (ids.foldr (fun i acc => acc.eraseIdx i) l).getD (k - ids.length) d =
        l.getD k d := by
  intro ids
  induction ids with
  | nil => intro l k _ _ _; rfl
  | cons i rest ih =>
    intro l k hp hk hkl
    have hrp : List.Pairwise (· < ·) rest := hp.of_cons
    have hri : ∀ x ∈ rest, i < x := fun x hx => List.rel_of_pairwise_cons hp hx
    have hrk : ∀ x ∈ rest, x < k := fun x hx => hk x (List.mem_cons_of_mem i hx)
    have hcard : rest.length ≤ k - i - 1 := by
      have hnd : rest.Nodup := hrp.imp Nat.ne_of_lt
      have hsub : rest.toFinset ⊆ Finset.Ioo i k := by
        intro x hx
        rw [List.mem_toFinset] at hx
        exact Finset.mem_Ioo.mpr ⟨hri x hx, hrk x hx⟩
      have := Finset.card_le_card hsub
      rw [Nat.card_Ioo] at this
      rwa [List.toFinset_card_of_nodup hnd] at this
    have hik : i < k := hk i (List.mem_cons_self i rest)
    have hrb : ∀ x ∈ rest, x < l.length := fun x hx => lt_trans (hrk x hx) hkl
    have hlen : (rest.foldr (fun i acc => acc.eraseIdx i) l).length =
        l.length - rest.length := length_eraseIdx_foldr rest l hrp hrb
    simp only [List.foldr_cons, List.length_cons]
    have h1 : k - (rest.length + 1) = (k - rest.length) - 1 := by omega
    rw [h1]
    rw [getD_eraseIdx_shift d _ i (k - rest.length) (by omega) (by omega)]
    exact ih l k hrp (fun x hx => hrk x hx) hkl

theorem range_map_getD {α} (d : α) :
    ∀ (l : List α), (List.range l.length).map (fun i => l.getD i d) = l := by
  intro l
  induction l with
  | nil => rfl
  | cons a l ih =>
    rw [List.length_cons, List.range_succ_eq_map, List.map_cons, List.map_map]
    simp only [List.getD_cons_zero, Function.comp_def, List.getD_cons_succ]
    rw [ih]

/-- `(!l.contains j) = true` is non-membership. -/
theorem not_contains_iff (l : List Nat) (j : Nat) : (!l.contains j) = true ↔ j ∉ l := by
  simp [List.elem_iff]

/-- Removing a strictly ascending list of in-range positions back to
front keeps exactly the other positions, in order. -/
theorem eraseIdx_foldr_filter {α} (d : α) :
    ∀ (ids : List Nat) (l : List α), List.Pairwise (· < ·) ids →
      (∀ i ∈ ids, i < l.length) →
      ids.foldr (fun i acc => acc.eraseIdx i) l =
        ((List.range l.length).filter (fun i => !ids.contains i)).map
          (fun i => l.getD i d) := by
  intro ids
  induction ids with
  | nil =>
    intro l _ _
    have h0 : (List.range l.length).filter (fun i => !([] : List Nat).contains i) =
        List.range l.length := by
      apply List.filter_eq_self.mpr
      intro j _
      simp
    simp only [List.foldr_nil, h0, range_map_getD]
  | cons i rest ih =>
    intro l hp hb
    have hrp : List.Pairwise (· < ·) rest := hp.of_cons
    have hri : ∀ x ∈ rest, i < x := fun x hx => List.rel_of_pairwise_cons hp hx
    have hrb : ∀ x ∈ rest, x < l.length := fun x hx => hb x (List.mem_cons_of_mem i hx)
    have hil : i < l.length := hb i (List.mem_cons_self i rest)
    have hsplit : List.range l.length =
        List.range (i + 1) ++ (List.range (l.length - (i + 1))).map ((i + 1) + ·) := by
      rw [← List.range_add]
      congr 1
      omega
    have h3 : (List.range (i + 1)).filter (fun j => !rest.contains j) =
        List.range (i + 1) := by
      apply List.filter_eq_self.mpr
      intro j hj
      rw [List.mem_range] at hj
      refine (not_contains_iff rest j).mpr (fun hmem => ?_)
      have := hri j hmem
      omega
    have h4 : (List.range (i + 1)).filter (fun j => !((i :: rest).contains j)) =
        List.range i := by
      rw [List.range_succ, List.filter_append]
      have ha : (List.range i).filter (fun j => !((i :: rest).contains j)) =
          List.range i := by
        apply List.filter_eq_self.mpr
        intro j hj
        rw [List.mem_range] at hj
        refine (not_contains_iff _ j).mpr (fun hmem => ?_)
        rcases List.mem_cons.mp hmem with h | h
        · omega
        · have := hri j h
          omega
      have hb' : ([i].filter (fun j => !((i :: rest).contains j))) = [] := by
        simp [List.elem_iff]
      rw [ha, hb']
      simp
    have h5 : ((List.range (l.length - (i + 1))).map ((i + 1) + ·)).filter
          (fun j => !((i :: rest).contains j)) =
        ((List.range (l.length - (i + 1))).map ((i + 1) + ·)).filter
          (fun j => !rest.contains j) := by
      apply List.filter_congr
      intro j hj
      rw [List.mem_map] at hj
      obtain ⟨m, _, hm⟩ := hj
      have hji : j ≠ i := by omega
      have : ((i :: rest).contains j) = (rest.contains j) := by
        simp [List.contains_cons, hji]
      rw [this]
    simp only [List.foldr_cons]
    rw [ih l hrp hrb]
    conv_lhs => rw [hsplit]
    conv_rhs => rw [hsplit]
    rw [List.filter_append, List.filter_append, h3, h4, h5, List.map_append,
      List.map_append]
    rw [eraseIdx_append_left _ _ i (by simp)]
    congr 1
    rw [List.range_succ, List.map_append]
    have h7 := eraseIdx_append_last ((fun j => l.getD j d) i)
      ((List.range i).map (fun j => l.getD j d))
    simpa using h7

theorem map_eraseIdx {α β} (f : α → β) :
    ∀ (l : List α) (i : Nat), (l.eraseIdx i).map f = (l.map f).eraseIdx i := by
  intro l
  induction l with
  | nil => intro i; rfl
  | cons a l ih =>
    intro i
    match i with
    | 0 => rfl
    | i + 1 => simp only [List.eraseIdx, List.map_cons, ih]

theorem getD_map {α β} (f : α → β) (d : α) :
    ∀ (l : List α) (i : Nat), (l.map f).getD i (f d) = f (l.getD i d) := by
  intro l
  induction l with
  | nil => intro i; rfl
  | cons a l ih =>
    intro i
    match i with
    | 0 => rfl
    | i + 1 => simpa using ih i

/-- The reference cascade does not touch call metadata. -/
theorem clearRefs_meta (i : Nat) (c : Call) : (Call.clearRefs i c).meta = c.meta := rfl

/-- At the metadata level, `RemoveCall` is exactly `eraseIdx`. -/
theorem removeCall_metas (p : Prog) (i : Nat) :
    (p.RemoveCall i).calls.map (fun c => c.meta) =
      (p.calls.map (fun c => c.meta)).eraseIdx i := by
  show ((p.calls.eraseIdx i).map (Call.clearRefs i)).map (fun c => c.meta) = _
  rw [List.map_map, ← map_eraseIdx]
  rfl

/-- At the metadata level, the back-to-front removal of a list of
positions is the corresponding `eraseIdx` fold. -/
theorem removeByIdsDesc_metas (p : Prog) (ids : List Nat) :
    (removeByIdsDesc p ids).calls.map (fun c => c.meta) =
      ids.foldr (fun i acc => acc.eraseIdx i) (p.calls.map (fun c => c.meta)) := by
  induction ids generalizing p with
  | nil => rfl
  | cons i rest ih =>
    show ((removeByIdsDesc p rest).RemoveCall i).calls.map (fun c => c.meta) = _
    rw [removeCall_metas, ih]
    rfl

/-- The oracle adapter never modifies the proposal's call list (only the
telemetry fields). -/
theorem askPred_calls (env : Env) (os : Nat) (p : Prog) (k : Int) :
    ((askPred env os p k).2.1).calls = p.calls := by
  simp only [askPred, sanitizeFix]
  split <;> rfl

/-- `removeFrontIds` is strictly ascending. -/
theorem removeFrontIds_sorted (edge : Nat → Nat → Bool) (k0 : Nat) :
    List.Pairwise (· < ·) (removeFrontIds edge k0) :=
  (List.pairwise_lt_range k0).filter _

/-- C5: the influence-guided prefix drop.  (1) `remove_front_ids` holds
exactly the positions `i < k0` outside the closed BFS set `R` of relevant
predecessors (strictly ascending).  (2) Removing an ascending list of
in-range positions back to front keeps exactly the calls at the other
positions, in order (stated on call metadata; the spec-modelled reference
cascade rewrites surviving calls' argument references only).  (3) The
stage is skipped when no position qualifies; otherwise the proposal is
queried once at index `k0 - |ids|`: on accept the reduced program becomes
the baseline and the target index drops by the number of removed calls,
on reject both are unchanged. -/
theorem c5_influence_guided_prefix_drop :
    (∀ (mat : Mat) (calls : List Call) (k0 i : Nat),
      (i ∈ removeFrontIds (edgeFn mat calls) k0 ↔
        i < k0 ∧ ¬ Relevant (edgeFn mat calls) k0 i) ∧
      List.Pairwise (· < ·) (removeFrontIds (edgeFn mat calls) k0)) ∧
    (∀ (p : Prog) (ids : List Nat), List.Pairwise (· < ·) ids →
      (∀ i ∈ ids, i < p.calls.length) →
      (removeByIdsDesc p ids).calls.map (fun c => c.meta) =
        ((List.range p.calls.length).filter (fun i => !ids.contains i)).map
          (fun i => (p.calls.getD i default).meta)) ∧
    (∀ (env : Env) (ile : Bool) (frontIds : List Nat) (st : CState),
      (frontIds = [] → prefixStage env ile frontIds st = st) ∧
      (frontIds ≠ [] → ∀ ok p' os',
        askPred env st.os
            (if ile then { removeByIdsDesc st.p0.Clone frontIds with needUpdate := true }
              else removeByIdsDesc st.p0.Clone frontIds)
            (st.k0 - frontIds.length) = (ok, p', os') →
        (ok = true →
          (prefixStage env ile frontIds st).p0.calls =
            (removeByIdsDesc st.p0 frontIds).calls ∧
          (prefixStage env ile frontIds st).k0 = st.k0 - frontIds.length) ∧
        (ok = false →
          (prefixStage env ile frontIds st).p0 = st.p0 ∧
          (prefixStage env ile frontIds st).k0 = st.k0))) := by
  refine ⟨?_, ?_, ?_⟩
  · intro mat calls k0 i
    exact ⟨mem_removeFrontIds (edgeFn mat calls) k0 i,
      removeFrontIds_sorted (edgeFn mat calls) k0⟩
  · intro p ids hs hb
    rw [removeByIdsDesc_metas, eraseIdx_foldr_filter (default : Call).meta ids _
      hs (by simpa using hb)]
    have hlen : (p.calls.map (fun c => c.meta)).length = p.calls.length := by simp
    rw [hlen]
    apply List.map_congr_left
    intro i _
    rw [← getD_map (fun c => c.meta) default p.calls i]
  · intro env ile frontIds st
    constructor
    · intro h
      simp [prefixStage, h]
    · intro hne ok p' os' heq
      have hcalls : p'.calls = (removeByIdsDesc st.p0 frontIds).calls := by
        have h1 := askPred_calls env st.os
          (if ile then { removeByIdsDesc st.p0.Clone frontIds with needUpdate := true }
            else removeByIdsDesc st.p0.Clone frontIds) (st.k0 - frontIds.length)
        rw [heq] at h1
        rw [h1]
        match ile with
        | true => rfl
        | false => rfl
      constructor
      · intro hok
        subst hok
        simp only [prefixStage, hne, ne_eq, not_false_iff, if_true, heq]
        refine ⟨?_, by trivial⟩
        match ile with
        | true => exact hcalls
        | false => exact hcalls
      · intro hok
        subst hok
        simp only [prefixStage, hne, ne_eq, not_false_iff, if_true, heq]
        exact ⟨rfl, rfl⟩

/-- The static matrix of spec scenario 2: `open_r (id 0) → use_r (id 1)`. -/
def c5Mat : Mat := fun i j => if i = 0 ∧ j = 1 then 1 else 0

/-- The program of spec scenario 2: `[noop, mk_f, open_r, use_r]` with
target `use_r` at index 3. -/
def c5Prog : Prog :=
  { calls := [
      { meta := { name := "noop", id := 4, noMinimize := false, argNames := [] } },
      { meta := { name := "mk_f", id := 2, noMinimize := false, argNames := [] } },
      { meta := { name := "open_r", id := 0, noMinimize := false, argNames := [] } },
      { meta := { name := "use_r", id := 1, noMinimize := false, argNames := [] } }] }

/-- Witness for C5 on the scenario-2 program. -/
theorem c5_influence_guided_prefix_drop_witness :
    (0 ∈ removeFrontIds (edgeFn c5Mat c5Prog.calls) 3 ↔
      0 < 3 ∧ ¬ Relevant (edgeFn c5Mat c5Prog.calls) 3 0) ∧
    List.Pairwise (· < ·) ([0, 1] : List Nat) ∧
    (removeByIdsDesc c5Prog [0, 1]).calls.map (fun c => c.meta) =
      ((List.range c5Prog.calls.length).filter
        (fun i => !([0, 1] : List Nat).contains i)).map
        (fun i => (c5Prog.calls.getD i default).meta) :=
  ⟨(c5_influence_guided_prefix_drop.1 c5Mat c5Prog.calls 3 0).1, by decide,
    c5_influence_guided_prefix_drop.2.1 c5Prog [0, 1] (by decide) (by decide)⟩

/-! ## Rejected oracles commit nothing (towards C2) -/

theorem askPred_fst (env : Env) (os : Nat) (p : Prog) (k : Int) :
    (askPred env os p k).1 = env.ok os p k := rfl

/-- The blob halving loop only advances the oracle counter in the state. -/
theorem blobLoop_state (ctx : ACtx) (plugLen : Nat → Prog) (minLen : Nat) :
    ∀ (fuel curLen step : Nat) (s : AState),
      ((blobLoop ctx plugLen minLen fuel curLen step s).2).p0 = s.p0 ∧
      ((blobLoop ctx plugLen minLen fuel curLen step s).2).tried = s.tried := by
  intro fuel
  induction fuel with
  | zero => intro curLen step s; exact ⟨rfl, rfl⟩
  | succ fuel ih =>
    intro curLen step s
    simp only [blobLoop]
    split
    · split
      · split
        · exact ih _ _ _
        · split
          · exact ⟨rfl, rfl⟩
          · exact ih _ _ _
      · split
        · exact ⟨rfl, rfl⟩
        · exact ih _ _ _
    · exact ⟨rfl, rfl⟩

/-- Under an all-rejecting oracle every trim is restored, so the blob
loop ends at the initial length. -/
theorem blobLoop_len_reject (ctx : ACtx)
    (hR : ∀ n p k, ctx.env.ok n p k = false) (plugLen : Nat → Prog)
    (minLen : Nat) :
    ∀ (fuel curLen step : Nat) (s : AState),
      (blobLoop ctx plugLen minLen fuel curLen step s).1 = curLen := by
  intro fuel
  induction fuel with
  | zero => intro curLen step s; rfl
  | succ fuel ih =>
    intro curLen step s
    simp only [blobLoop, askPred_fst, hR, Bool.false_eq_true, if_false]
    split
    · split
      · split
        · rfl
        · exact ih _ _ _
      · split
        · rfl
        · exact ih _ _ _
    · rfl

theorem minimizeIntStep_p0_reject (ctx : ACtx)
    (hR : ∀ n p k, ctx.env.ok n p k = false) (plug : Arg → Prog)
    (ty : ArgType) (dir : Dir) (v dv : Nat) (path : String) (s : AState) :
    ((minimizeIntStep ctx plug ty dir v dv path s).2.2).p0 = s.p0 := by
  simp only [minimizeIntStep, askPred_fst, hR, Bool.false_eq_true, if_false]
  split
  · rfl
  · split
    · rfl
    · rfl

theorem resourceMin_p0_reject (ctx : ACtx)
    (hR : ∀ n p k, ctx.env.ok n p k = false) (plug : Arg → Prog)
    (ty : ArgType) (dir : Dir) (res : Option ResRef) (v : Nat)
    (path : String) (s : AState) :
    ((resourceMin ctx plug ty dir res v path s).2.2).p0 = s.p0 := by
  simp only [resourceMin, askPred_fst, hR, Bool.false_eq_true, if_false]
  split
  · rfl
  · split
    · rfl
    · rfl

theorem bufferMin_p0_reject (ctx : ACtx)
    (hR : ∀ n p k, ctx.env.ok n p k = false) (plug : Arg → Prog)
    (ty : ArgType) (dir : Dir) (bk : BufKind) (rb : Nat) (noZ varlen : Bool)
    (orig : List Nat) (curLen : Nat) (path : String) (s : AState) :
    ((bufferMin ctx plug ty dir bk rb noZ varlen orig curLen path s).2.2).p0 = s.p0 := by
  simp only [bufferMin]
  split
  · rfl
  · match bk with
    | .blobRand | .blobRange =>
      simp only
      rw [blobLoop_len_reject ctx hR]
      simp only [ne_eq, not_true_eq_false, if_false, ite_self]
      exact (blobLoop_state ctx _ _ _ _ _ _).1
    | .filename =>
      simp only [askPred_fst, hR, Bool.false_eq_true, if_false]
      repeat' split
      all_goals rfl
    | .compressed => rfl

/-- Under an all-rejecting oracle, no function of the argument minimizer
ever replaces the committed baseline. -/
theorem argFuns_p0_reject (ctx : ACtx)
    (hR : ∀ n p k, ctx.env.ok n p k = false) :
    ∀ fuel : Nat,
      (∀ plug arg field path s,
        ((doArg ctx fuel plug arg field path s).2.2).p0 = s.p0) ∧
      (∀ plug arg path s,
        ((typeMin ctx fuel plug arg path s).2.2).p0 = s.p0) ∧
      (∀ plugG fields done rest path s,
        ((structLoop ctx fuel plugG fields done rest path s).2.2).p0 = s.p0) ∧
      (∀ plugG kind rb cur c path s,
        ((arrayLoop ctx fuel plugG kind rb cur c path s).2.2).p0 = s.p0) := by
  intro fuel
  induction fuel with
  | zero =>
    refine ⟨fun _ _ _ _ _ => rfl, fun _ _ _ _ => rfl, fun _ _ _ _ _ _ => rfl,
      fun _ _ _ _ _ _ _ => rfl⟩
  | succ fuel ih =>
    obtain ⟨ihD, ihT, ihS, ihA⟩ := ih
    have hDo : ∀ plug arg field path s,
        ((doArg ctx (fuel + 1) plug arg field path s).2.2).p0 = s.p0 := by
      intro plug arg field path s
      simp only [doArg]
      split
      · rfl
      · rcases h : typeMin ctx fuel plug arg (path ++ "-" ++ field) s with ⟨r, a', s'⟩
        have hp := ihT plug arg (path ++ "-" ++ field) s
        rw [h] at hp
        match r with
        | true => simpa using hp
        | false => simpa using hp
    have hTy : ∀ plug arg path s,
        ((typeMin ctx (fuel + 1) plug arg path s).2.2).p0 = s.p0 := by
      intro plug arg path s
      match arg with
      | .constA ty dir v =>
        match ty with
        | .intT dv =>
          exact minimizeIntStep_p0_reject ctx hR plug (.intT dv) dir v dv path s
        | .flagsT dv =>
          exact minimizeIntStep_p0_reject ctx hR plug (.flagsT dv) dir v dv path s
        | .procT popt dv =>
          simp only [typeMin]
          split
          · rfl
          · exact minimizeIntStep_p0_reject ctx hR plug (.procT popt dv) dir v dv path s
        | .common => rfl
        | .ptrT => rfl
        | .structT f => rfl
        | .unionT f => rfl
        | .arrayT k rb => rfl
        | .resourceT dv => rfl
        | .bufferT a b c d => rfl
      | .pointerA ty dir res =>
        match res with
        | none => rfl
        | some inner =>
          simp only [typeMin, askPred_fst, hR, Bool.false_eq_true, if_false]
          split
          · rfl
          · rcases h : doArg ctx fuel (fun x => plug (.pointerA ty dir (some x)))
                inner "" path s with ⟨r, inner', s'⟩
            have hp := ihD (fun x => plug (.pointerA ty dir (some x))) inner "" path s
            rw [h] at hp
            simpa using hp
      | .groupA ty dir inner =>
        match ty with
        | .structT fields =>
          simp only [typeMin]
          rcases h : structLoop ctx fuel
              (fun l => plug (.groupA (.structT fields) dir l)) fields [] inner
              path s with ⟨r, l', s'⟩
          have hp := ihS (fun l => plug (.groupA (.structT fields) dir l)) fields
            [] inner path s
          rw [h] at hp
          simpa using hp
        | .arrayT kind rb =>
          simp only [typeMin, askPred_fst, hR, Bool.false_eq_true, if_false]
          split
          · rfl
          · rcases h : arrayLoop ctx fuel
                (fun l => plug (.groupA (.arrayT kind rb) dir l)) kind rb inner
                inner.length path s with ⟨r, l', s'⟩
            have hp := ihA (fun l => plug (.groupA (.arrayT kind rb) dir l)) kind
              rb inner inner.length path s
            rw [h] at hp
            simpa using hp
        | .common => rfl
        | .intT dv => rfl
        | .flagsT dv => rfl
        | .procT a b => rfl
        | .ptrT => rfl
        | .unionT f => rfl
        | .resourceT dv => rfl
        | .bufferT a b c d => rfl
      | .unionA ty dir idx uopt =>
        match ty with
        | .unionT fields =>
          simp only [typeMin]
          rcases h : doArg ctx fuel (fun x => plug (.unionA (.unionT fields) dir idx x))
              uopt (fields.getD idx "") path s with ⟨r, o', s'⟩
          have hp := ihD (fun x => plug (.unionA (.unionT fields) dir idx x)) uopt
            (fields.getD idx "") path s
          rw [h] at hp
          simpa using hp
        | .common => rfl
        | .intT dv => rfl
        | .flagsT dv => rfl
        | .procT a b => rfl
        | .ptrT => rfl
        | .structT f => rfl
        | .arrayT k rb => rfl
        | .resourceT dv => rfl
        | .bufferT a b c d => rfl
      | .dataA ty dir orig curLen =>
        match ty with
        | .bufferT bk rb noZ varlen =>
          exact bufferMin_p0_reject ctx hR plug (.bufferT bk rb noZ varlen) dir bk
            rb noZ varlen orig curLen path s
        | .common => rfl
        | .intT dv => rfl
        | .flagsT dv => rfl
        | .procT a b => rfl
        | .ptrT => rfl
        | .structT f => rfl
        | .unionT f => rfl
        | .arrayT k rb => rfl
        | .resourceT dv => rfl
      | .resultA ty dir res v =>
        match ty with
        | .resourceT dv =>
          exact resourceMin_p0_reject ctx hR plug (.resourceT dv) dir res v path s
        | .common => rfl
        | .intT dv => rfl
        | .flagsT dv => rfl
        | .procT a b => rfl
        | .ptrT => rfl
        | .structT f => rfl
        | .unionT f => rfl
        | .arrayT k rb => rfl
        | .bufferT a b c d => rfl
    have hSt : ∀ plugG fields done rest path s,
        ((structLoop ctx (fuel + 1) plugG fields done rest path s).2.2).p0 = s.p0 := by
      intro plugG fields done rest path s
      match rest, fields with
      | [], _ => rfl
      | a :: rest', [] => rfl
      | a :: rest', fname :: fnames' =>
        simp only [structLoop]
        rcases h : doArg ctx fuel (fun x => plugG (done ++ x :: rest')) a fname
            path s with ⟨r, a', s'⟩
        have hp := ihD (fun x => plugG (done ++ x :: rest')) a fname path s
        rw [h] at hp
        match r with
        | true => simpa using hp
        | false =>
          simp only
          rw [ihS plugG fnames' (done ++ [a']) rest' path s']
          exact hp
    have hAr : ∀ plugG kind rb cur c path s,
        ((arrayLoop ctx (fuel + 1) plugG kind rb cur c path s).2.2).p0 = s.p0 := by
      intro plugG kind rb cur c path s
      match c with
      | 0 => rfl
      | i + 1 =>
        simp only [arrayLoop, askPred_fst, hR, Bool.false_eq_true, if_false]
        split
        · rfl
        · rcases h : doArg ctx fuel (fun x => plugG (cur.set i x))
              (cur.getD i default) "" (path ++ "-" ++ toString i) s with ⟨r, e', s'⟩
          have hp := ihD (fun x => plugG (cur.set i x)) (cur.getD i default) ""
            (path ++ "-" ++ toString i) s
          rw [h] at hp
          match r with
          | true => simpa using hp
          | false =>
            simp only
            rw [ihA plugG kind rb (cur.set i e') i path s']
            exact hp
    exact ⟨hDo, hTy, hSt, hAr⟩

theorem passLoop_p0_reject (ctx : ACtx)
    (hR : ∀ n p k, ctx.env.ok n p k = false) (fuel i : Nat) (clone : Prog) :
    ∀ (names : List String) (j : Nat) (curArgs : List Arg) (s : AState),
      ((passLoop ctx fuel i clone names j curArgs s).2).p0 = s.p0 := by
  intro names
  induction names with
  | nil => intro j curArgs s; rfl
  | cons fname fnames ih =>
    intro j curArgs s
    simp only [passLoop]
    rcases h : doArg ctx fuel
        (fun a => { clone with
          calls := clone.calls.set i
            { clone.calls.getD i default with args := curArgs.set j a } })
        (curArgs.getD j default) fname "" s with ⟨r, a', s'⟩
    have hp := (argFuns_p0_reject ctx hR fuel).1
      (fun a => { clone with
        calls := clone.calls.set i
          { clone.calls.getD i default with args := curArgs.set j a } })
      (curArgs.getD j default) fname "" s
    rw [h] at hp
    match r with
    | true => simpa using hp
    | false =>
      simp only
      rw [ih (j + 1) (curArgs.set j a') s']
      exact hp

theorem againLoop_p0_reject (ctx : ACtx)
    (hR : ∀ n p k, ctx.env.ok n p k = false) (i : Nat) :
    ∀ (fuel : Nat) (s : AState), ((againLoop ctx i fuel s).p0) = s.p0 := by
  intro fuel
  induction fuel with
  | zero => intro s; rfl
  | succ fuel ih =>
    intro s
    simp only [againLoop, Prog.Clone]
    rcases h : passLoop ctx fuel i s.p0
        (s.p0.calls.getD i default).meta.argNames 0
        (s.p0.calls.getD i default).args s with ⟨r, s'⟩
    have hp := passLoop_p0_reject ctx hR fuel i s.p0
      (s.p0.calls.getD i default).meta.argNames 0
      (s.p0.calls.getD i default).args s
    rw [h] at hp
    match r with
    | true =>
      simp only
      rw [ih s']
      exact hp
    | false => exact hp

theorem minimizeCallProps_reject (env : Env)
    (hR : ∀ n p k, env.ok n p k = false) (os : Nat) (p0 : Prog)
    (callIndex : Nat) (callIndex0 : Int) :
    (minimizeCallProps env os p0 callIndex callIndex0).1 = p0 := by
  simp only [minimizeCallProps, propsProbe, askPred_fst, hR, Bool.false_eq_true,
    if_false]
  repeat' split
  all_goals rfl

theorem resetCallProps_reject (env : Env)
    (hR : ∀ n p k, env.ok n p k = false) (os : Nat) (p0 : Prog)
    (callIndex0 : Int) :
    (resetCallProps env os p0 callIndex0).1 = p0 := by
  simp only [resetCallProps, askPred_fst, hR, Bool.false_eq_true, if_false]
  repeat' split
  all_goals rfl

theorem argPhaseStep_p0_reject (env : Env)
    (hR : ∀ n p k, env.ok n p k = false) (k0 : Int) (crash argOpt doProps : Bool)
    (fuel i : Nat) (st : Prog × Nat) :
    (argPhaseStep env k0 crash argOpt doProps fuel i st).1 = st.1 := by
  simp only [argPhaseStep]
  split
  · rfl
  · split
    · rw [minimizeCallProps_reject env hR]
      exact againLoop_p0_reject ⟨env, k0, crash, argOpt⟩ hR i fuel ⟨st.1, [], st.2⟩
    · exact againLoop_p0_reject ⟨env, k0, crash, argOpt⟩ hR i fuel ⟨st.1, [], st.2⟩

theorem argPhase_p0_reject (env : Env)
    (hR : ∀ n p k, env.ok n p k = false) (k0 : Int) (crash argOpt doProps : Bool)
    (fuel : Nat) :
    ∀ (is : List Nat) (st : Prog × Nat),
      (argPhase env k0 crash argOpt doProps fuel is st).1 = st.1 := by
  intro is
  induction is with
  | nil => intro st; rfl
  | cons i rest ih =>
    intro st
    show (argPhase env k0 crash argOpt doProps fuel rest
      (argPhaseStep env k0 crash argOpt doProps fuel i st)).1 = st.1
    rw [ih, argPhaseStep_p0_reject env hR]

theorem postStage_reject (env : Env)
    (hR : ∀ n p k, env.ok n p k = false) (ile : Bool) (st : CState) :
    (postStage env ile st).p0 = st.p0 ∧ (postStage env ile st).k0 = st.k0 ∧
    (postStage env ile st).mat = st.mat ∧ (postStage env ile st).flag = st.flag := by
  simp only [postStage, askPred_fst, hR, Bool.false_eq_true, if_false]
  repeat' split
  all_goals exact ⟨rfl, rfl, rfl, rfl⟩

theorem prefixStage_reject (env : Env)
    (hR : ∀ n p k, env.ok n p k = false) (ile : Bool) (frontIds : List Nat)
    (st : CState) :
    (prefixStage env ile frontIds st).p0 = st.p0 ∧
    (prefixStage env ile frontIds st).k0 = st.k0 ∧
    (prefixStage env ile frontIds st).mat = st.mat ∧
    (prefixStage env ile frontIds st).flag = st.flag := by
  simp only [prefixStage, askPred_fst, hR, Bool.false_eq_true, if_false]
  repeat' split
  all_goals exact ⟨rfl, rfl, rfl, rfl⟩

theorem pairwiseStep_reject (env : Env)
    (hR : ∀ n p k, env.ok n p k = false) (ile : Bool) (i : Nat) (st : CState) :
    (pairwiseStep env ile i st).p0 = st.p0 ∧
    (pairwiseStep env ile i st).k0 = st.k0 := by
  simp only [pairwiseStep, askPred_fst, hR, Bool.false_eq_true, if_false]
  repeat' split
  all_goals exact ⟨rfl, rfl⟩

theorem pairwiseLoop_reject (env : Env)
    (hR : ∀ n p k, env.ok n p k = false) (ile : Bool) :
    ∀ (c : Nat) (st : CState),
      (pairwiseLoop env ile c st).p0 = st.p0 ∧
      (pairwiseLoop env ile c st).k0 = st.k0 := by
  intro c
  induction c with
  | zero => intro st; exact ⟨rfl, rfl⟩
  | succ c ih =>
    intro st
    have h1 := pairwiseStep_reject env hR ile c st
    have h2 := ih (pairwiseStep env ile c st)
    exact ⟨h2.1.trans h1.1, h2.2.trans h1.2⟩

theorem removeCalls_optimize_reject (env : Env)
    (hR : ∀ n p k, env.ok n p k = false) (ile : Bool) (mat : Mat) (os : Nat)
    (p0 : Prog) (callIndex0 : Int) (crash : Bool) :
    (removeCalls_optimize env ile mat os p0 callIndex0 crash).p0 = p0 ∧
    (removeCalls_optimize env ile mat os p0 callIndex0 crash).k0 = callIndex0 := by
  simp only [removeCalls_optimize]
  have h1 := postStage_reject env hR ile ⟨p0, callIndex0, mat, os, false⟩
  have h2 := prefixStage_reject env hR ile
    (removeFrontIds (edgeFn mat p0.calls) callIndex0.toNat)
    (postStage env ile ⟨p0, callIndex0, mat, os, false⟩)
  have h3 := pairwiseLoop_reject env hR ile
    (prefixStage env ile (removeFrontIds (edgeFn mat p0.calls) callIndex0.toNat)
      (postStage env ile ⟨p0, callIndex0, mat, os, false⟩)).p0.calls.length
    (prefixStage env ile (removeFrontIds (edgeFn mat p0.calls) callIndex0.toNat)
      (postStage env ile ⟨p0, callIndex0, mat, os, false⟩))
  exact ⟨h3.1.trans (h2.1.trans h1.1), h3.2.trans (h2.2.1.trans h1.2.1)⟩

/-- Base-variant stage lemmas for rejected oracles. -/
theorem postStageBase_reject (env : Env)
    (hR : ∀ n p k, env.ok n p k = false) (os : Nat) (p0 : Prog) (k0 : Int) :
    (postStageBase env os p0 k0).1 = p0 := by
  simp only [postStageBase, askPred_fst, hR, Bool.false_eq_true, if_false]
  repeat' split
  all_goals rfl

theorem removeUnrelatedCalls_reject (env : Env)
    (hR : ∀ n p k, env.ok n p k = false) (os : Nat) (p0 : Prog) (k0 : Int) :
    (removeUnrelatedCalls env os p0 k0).1 = p0 ∧
    (removeUnrelatedCalls env os p0 k0).2.1 = k0 := by
  simp only [removeUnrelatedCalls, askPred_fst, hR, Bool.false_eq_true, if_false]
  repeat' split
  all_goals exact ⟨rfl, rfl⟩

theorem pairwiseStepBase_reject (env : Env)
    (hR : ∀ n p k, env.ok n p k = false) (i : Nat) (st : Prog × Int × Nat) :
    (pairwiseStepBase env i st).1 = st.1 ∧
    (pairwiseStepBase env i st).2.1 = st.2.1 := by
  simp only [pairwiseStepBase, askPred_fst, hR, Bool.false_eq_true, if_false]
  repeat' split
  all_goals exact ⟨rfl, rfl⟩

theorem pairwiseLoopBase_reject (env : Env)
    (hR : ∀ n p k, env.ok n p k = false) :
    ∀ (c : Nat) (st : Prog × Int × Nat),
      (pairwiseLoopBase env c st).1 = st.1 ∧
      (pairwiseLoopBase env c st).2.1 = st.2.1 := by
  intro c
  induction c with
  | zero => intro st; exact ⟨rfl, rfl⟩
  | succ c ih =>
    intro st
    have h1 := pairwiseStepBase_reject env hR c st
    have h2 := ih (pairwiseStepBase env c st)
    exact ⟨h2.1.trans h1.1, h2.2.trans h1.2⟩

theorem removeCallsBase_reject (env : Env)
    (hR : ∀ n p k, env.ok n p k = false) (mat : Mat) (os : Nat) (p0 : Prog)
    (callIndex0 : Int) (crash : Bool) :
    (removeCallsBase env mat os p0 callIndex0 crash).1 = p0 ∧
    (removeCallsBase env mat os p0 callIndex0 crash).2.1 = callIndex0 := by
  simp only [removeCallsBase]
  have h1 := postStageBase_reject env hR os p0 callIndex0
  split
  · next h =>
    rcases hu : removeUnrelatedCalls env (postStageBase env os p0 callIndex0).2
        (postStageBase env os p0 callIndex0).1 callIndex0 with ⟨pu, ku, osu⟩
    have h2 := removeUnrelatedCalls_reject env hR
      (postStageBase env os p0 callIndex0).2
      (postStageBase env os p0 callIndex0).1 callIndex0
    rw [hu] at h2
    simp only at h2
    have h3 := pairwiseLoopBase_reject env hR pu.calls.length (pu, ku, osu)
    simp only
    refine ⟨h3.1.trans ?_, h3.2.trans ?_⟩
    · exact h2.1.trans h1
    · exact h2.2
  · next h =>
    have h3 := pairwiseLoopBase_reject env hR
      (postStageBase env os p0 callIndex0).1.calls.length
      ((postStageBase env os p0 callIndex0).1, callIndex0,
        (postStageBase env os p0 callIndex0).2)
    exact ⟨h3.1.trans h1, h3.2⟩

/-- C2: with an always-rejecting oracle, both variants of `Minimize`
return the input program and target index unchanged — no proposal is ever
committed.  (The influence-learning flag and the matrix are returned as
well by the optimized variant: rejection may still record learned
influence, which the claim does not constrain.) -/
theorem c2_always_reject_returns_input (env : Env)
    (hR : ∀ n p k, env.ok n p k = false) (fuel : Nat) (ile : Bool) (mat : Mat)
    (p0 : Prog) (k0 : Int) (crash : Bool)
    (hk : k0 = -1 ∨ (0 ≤ k0 ∧ k0 < (p0.calls.length : Int))) :
    (∃ flag mat', Minimize fuel env ile mat p0 k0 crash =
      (some (p0, k0, flag), mat')) ∧
    MinimizeBase fuel env mat p0 k0 crash = some (p0, k0) := by
  have hInit : ¬(k0 ≠ -1 ∧ (k0 < 0 ∨ (p0.calls.length : Int) ≤ k0)) := by
    rintro ⟨hne, hc⟩
    rcases hk with h | ⟨h1, h2⟩
    · exact hne h
    · omega
  constructor
  · have hA := removeCalls_optimize_reject env hR ile mat 0 p0 k0 crash
    refine ⟨(removeCalls_optimize env ile mat 0 p0 k0 crash).flag,
      (removeCalls_optimize env ile mat 0 p0 k0 crash).mat, ?_⟩
    simp only [Minimize]
    rw [if_neg hInit]
    rw [hA.1, hA.2]
    rw [resetCallProps_reject env hR]
    rw [argPhase_p0_reject env hR]
    dsimp only
    rcases hk with hm1 | ⟨h1, h2⟩
    · subst hm1
      simp
    · have hne : k0 ≠ -1 := by omega
      have hname : (if k0 ≠ -1 then (p0.calls.getD k0.toNat default).meta.name
          else "") = (p0.calls.getD k0.toNat default).meta.name := if_pos hne
      rw [hname, if_pos hne,
        if_neg (by rintro (h | h | h) <;> first | omega | exact h rfl)]
  · have hA := removeCallsBase_reject env hR mat 0 p0 k0 crash
    simp only [MinimizeBase]
    rw [if_neg hInit]
    rw [hA.1, hA.2]
    rw [argPhase_p0_reject env hR]
    dsimp only
    rcases hk with hm1 | ⟨h1, h2⟩
    · subst hm1
      simp
    · have hne : k0 ≠ -1 := by omega
      have hname : (if k0 ≠ -1 then (p0.calls.getD k0.toNat default).meta.name
          else "") = (p0.calls.getD k0.toNat default).meta.name := if_pos hne
      rw [hname, if_pos hne,
        if_neg (by rintro (h | h | h) <;> first | omega | exact h rfl)]

/-- Witness for C2: a concrete one-call program under the all-rejecting
oracle. -/
theorem c2_always_reject_returns_input_witness :
    (∃ flag mat', Minimize 2 ⟨fun _ _ _ => false, fun _ => false, fun _ => []⟩
        false (fun _ _ => 0) (Prog.mk [{ meta := c4Meta "A" 0 }] [] false false)
        0 false = (some (Prog.mk [{ meta := c4Meta "A" 0 }] [] false false, 0, flag), mat')) ∧
    MinimizeBase 2 ⟨fun _ _ _ => false, fun _ => false, fun _ => []⟩
        (fun _ _ => 0) (Prog.mk [{ meta := c4Meta "A" 0 }] [] false false) 0 false =
      some (Prog.mk [{ meta := c4Meta "A" 0 }] [] false false, 0) :=
  c2_always_reject_returns_input ⟨fun _ _ _ => false, fun _ => false, fun _ => []⟩
    (fun _ _ _ => rfl) 2 false (fun _ _ => 0)
    (Prog.mk [{ meta := c4Meta "A" 0 }] [] false false) 0 false
    (Or.inr ⟨by decide, by decide⟩)

/-! ## Target identity is preserved (towards C8) -/

theorem map_set {α β} (f : α → β) :
    ∀ (l : List α) (i : Nat) (a : α), (l.set i a).map f = (l.map f).set i (f a) := by
  intro l
  induction l with
  | nil => intro i a; rfl
  | cons b l ih =>
    intro i a
    match i with
    | 0 => rfl
    | i + 1 => simp only [List.set_cons_succ, List.map_cons, ih]

theorem getD_set_ne {α} (d : α) :
    ∀ (l : List α) (i k : Nat) (a : α), i ≠ k →
      (l.set i a).getD k d = l.getD k d := by
  intro l
  induction l with
  | nil => intro i k a h; rfl
  | cons b l ih =>
    intro i k a h
    match i, k with
    | 0, 0 => exact absurd rfl h
    | 0, k + 1 => rfl
    | i + 1, 0 => rfl
    | i + 1, k + 1 =>
      simp only [List.set_cons_succ, List.getD_cons_succ]
      exact ih i k a (by omega)

theorem getD_set_eq {α} (d : α) :
    ∀ (l : List α) (i : Nat) (a : α), i < l.length →
      (l.set i a).getD i d = a := by
  intro l
  induction l with
  | nil => intro i a h; simp at h
  | cons b l ih =>
    intro i a h
    match i with
    | 0 => rfl
    | i + 1 => exact ih i a (by simpa using h)

theorem set_getD_self {α} (d : α) :
    ∀ (l : List α) (i : Nat), l.set i (l.getD i d) = l := by
  intro l
  induction l with
  | nil => intro i; rfl
  | cons b l ih =>
    intro i
    match i with
    | 0 => rfl
    | i + 1 => simp only [List.set_cons_succ, List.getD_cons_succ, ih]

/-- Length bound for a strictly ascending list below a bound. -/
theorem sorted_bounded_length (ids : List Nat) (k : Nat)
    (hs : List.Pairwise (· < ·) ids) (hb : ∀ i ∈ ids, i < k) :
    ids.length ≤ k := by
  have hnd : ids.Nodup := hs.imp Nat.ne_of_lt
  have hsub : ids.toFinset ⊆ Finset.range k := by
    intro x hx
    rw [List.mem_toFinset] at hx
    exact Finset.mem_range.mpr (hb x hx)
  have := Finset.card_le_card hsub
  rw [Finset.card_range] at this
  rwa [List.toFinset_card_of_nodup hnd] at this

/-- The invariant of C8: a valid target index whose call bears the
original syscall name. -/
def TgtInv (nm : String) (p : Prog) (k : Int) : Prop :=
  0 ≤ k ∧ k < (p.calls.length : Int) ∧
    (p.calls.getD k.toNat default).meta.name = nm

/-- Transfer of the invariant along a metadata-level description of the
new call list. -/
theorem tgtInv_of_metas {nm : String} {p q : Prog} {k k' : Int}
    (h : TgtInv nm p k)
    (hname : (q.calls.map (fun c => c.meta)).getD k'.toNat (default : Call).meta =
      (p.calls.map (fun c => c.meta)).getD k.toNat (default : Call).meta)
    (hk : 0 ≤ k') (hk2 : k' < (q.calls.length : Int)) : TgtInv nm q k' := by
  obtain ⟨h0, h1, h2⟩ := h
  refine ⟨hk, hk2, ?_⟩
  have e1 := getD_map (fun c => c.meta) default q.calls k'.toNat
  have e2 := getD_map (fun c => c.meta) default p.calls k.toNat
  rw [e1, e2] at hname
  rw [hname]
  exact h2

/-- `removePostIds` is ascending and lies strictly between the target and
the length. -/
theorem removePostIds_spec (len : Nat) (k0 : Int) :
    List.Pairwise (· < ·) (removePostIds len k0) ∧
    (∀ i ∈ removePostIds len k0, k0.toNat < i ∧ i < len) := by
  simp only [removePostIds]
  split
  · next hc =>
    constructor
    · rw [List.range'_eq_map_range]
      exact (List.pairwise_lt_range _).map _ (fun a b hab => by omega)
    · intro i hi
      rw [List.mem_range'_1] at hi
      omega
  · exact ⟨List.Pairwise.nil, by simp⟩

/-- Length bound on the suffix-drop positions. -/
theorem removePostIds_length (len : Nat) (k0 : Int) :
    (removePostIds len k0).length ≤ len - k0.toNat - 1 := by
  simp only [removePostIds]
  split
  · next hc =>
    rw [List.length_range']
    omega
  · simp

/-- The suffix-drop stage preserves the target invariant. -/
theorem postStage_tgtInv (env : Env) (ile : Bool) (st : CState) (nm : String)
    (h : TgtInv nm st.p0 st.k0) :
    TgtInv nm (postStage env ile st).p0 (postStage env ile st).k0 := by
  obtain ⟨hsp, hs⟩ := removePostIds_spec st.p0.calls.length st.k0
  obtain ⟨h0, h1, h2⟩ := h
  simp only [postStage]
  split
  · rcases hask : askPred env st.os
        (if ile then { removeByIdsDesc st.p0.Clone
            (removePostIds st.p0.calls.length st.k0) with needUpdate := true }
          else removeByIdsDesc st.p0.Clone
            (removePostIds st.p0.calls.length st.k0)) st.k0 with ⟨ok, p', os'⟩
    match ok with
    | false =>
      simp only [hask, Bool.false_eq_true, if_false]
      exact ⟨h0, h1, h2⟩
    | true =>
      simp only [hask, if_true]
      have hcalls : (if ile then { p' with needUpdate := false, execStatus := false }
          else p').calls = (removeByIdsDesc st.p0
            (removePostIds st.p0.calls.length st.k0)).calls := by
        have hpc := askPred_calls env st.os
          (if ile then { removeByIdsDesc st.p0.Clone
              (removePostIds st.p0.calls.length st.k0) with needUpdate := true }
            else removeByIdsDesc st.p0.Clone
              (removePostIds st.p0.calls.length st.k0)) st.k0
        rw [hask] at hpc
        match ile with
        | true => simpa using hpc
        | false => simpa using hpc
      have hmet : (if ile then { p' with needUpdate := false, execStatus := false }
          else p').calls.map (fun c => c.meta) =
          (removePostIds st.p0.calls.length st.k0).foldr
            (fun i acc => acc.eraseIdx i) (st.p0.calls.map (fun c => c.meta)) := by
        rw [hcalls, removeByIdsDesc_metas]
      have hblen : ∀ i ∈ removePostIds st.p0.calls.length st.k0,
          i < (st.p0.calls.map (fun c => c.meta)).length := by
        intro i hi
        simp only [List.length_map]
        exact (hs i hi).2
      have hlen : (if ile then { p' with needUpdate := false, execStatus := false }
          else p').calls.length = st.p0.calls.length -
          (removePostIds st.p0.calls.length st.k0).length := by
        have hl := length_eraseIdx_foldr (removePostIds st.p0.calls.length st.k0)
          (st.p0.calls.map (fun c => c.meta)) hsp hblen
        rw [← hmet] at hl
        simpa using hl
      have hcnt := removePostIds_length st.p0.calls.length st.k0
      have hname : ((if ile then { p' with needUpdate := false, execStatus := false }
          else p').calls.map (fun c => c.meta)).getD st.k0.toNat (default : Call).meta =
          (st.p0.calls.map (fun c => c.meta)).getD st.k0.toNat (default : Call).meta := by
        rw [hmet]
        exact getD_eraseIdx_foldr_above (default : Call).meta _ _ _
          (fun i hi => (hs i hi).1)
      refine tgtInv_of_metas ⟨h0, h1, h2⟩ hname h0 ?_
      rw [hlen]
      omega
  · exact ⟨h0, h1, h2⟩

/-- The influence-guided prefix drop preserves the target invariant: the
removed positions all precede the target, so the target shifts left by
their number and keeps its name. -/
theorem prefixStage_tgtInv (env : Env) (ile : Bool) (frontIds : List Nat)
    (st : CState) (nm : String) (h : TgtInv nm st.p0 st.k0)
    (hsorted : List.Pairwise (· < ·) frontIds)
    (hb : ∀ i ∈ frontIds, i < st.k0.toNat) :
    TgtInv nm (prefixStage env ile frontIds st).p0
      (prefixStage env ile frontIds st).k0 := by
  obtain ⟨h0, h1, h2⟩ := h
  have hcnt : frontIds.length ≤ st.k0.toNat :=
    sorted_bounded_length frontIds st.k0.toNat hsorted hb
  simp only [prefixStage]
  split
  · rcases hask : askPred env st.os
        (if ile then { removeByIdsDesc st.p0.Clone frontIds with needUpdate := true }
          else removeByIdsDesc st.p0.Clone frontIds)
        (st.k0 - frontIds.length) with ⟨ok, p', os'⟩
    match ok with
    | false =>
      simp only [hask, Bool.false_eq_true, if_false]
      exact ⟨h0, h1, h2⟩
    | true =>
      simp only [hask, if_true]
      have hcalls : (if ile then { p' with needUpdate := false, execStatus := false }
          else p').calls = (removeByIdsDesc st.p0 frontIds).calls := by
        have hpc := askPred_calls env st.os
          (if ile then { removeByIdsDesc st.p0.Clone frontIds with needUpdate := true }
            else removeByIdsDesc st.p0.Clone frontIds) (st.k0 - frontIds.length)
        rw [hask] at hpc
        match ile with
        | true => simpa using hpc
        | false => simpa using hpc
      have hmet : (if ile then { p' with needUpdate := false, execStatus := false }
          else p').calls.map (fun c => c.meta) =
          frontIds.foldr (fun i acc => acc.eraseIdx i)
            (st.p0.calls.map (fun c => c.meta)) := by
        rw [hcalls, removeByIdsDesc_metas]
      have hblen : ∀ i ∈ frontIds,
          i < (st.p0.calls.map (fun c => c.meta)).length := by
        intro i hi
        simp only [List.length_map]
        have := hb i hi
        omega
      have hlen : (if ile then { p' with needUpdate := false, execStatus := false }
          else p').calls.length = st.p0.calls.length - frontIds.length := by
        have hl := length_eraseIdx_foldr frontIds
          (st.p0.calls.map (fun c => c.meta)) hsorted hblen
        rw [← hmet] at hl
        simpa using hl
      have htoNat : (st.k0 - (frontIds.length : Int)).toNat =
          st.k0.toNat - frontIds.length := by omega
      have hname : ((if ile then { p' with needUpdate := false, execStatus := false }
          else p').calls.map (fun c => c.meta)).getD
            (st.k0 - (frontIds.length : Int)).toNat (default : Call).meta =
          (st.p0.calls.map (fun c => c.meta)).getD st.k0.toNat (default : Call).meta := by
        rw [hmet, htoNat]
        exact getD_eraseIdx_foldr_front (default : Call).meta frontIds _ st.k0.toNat
          hsorted hb (by simp only [List.length_map]; omega)
      refine tgtInv_of_metas ⟨h0, h1, h2⟩ hname (by omega) ?_
      rw [hlen]
      omega
  · exact ⟨h0, h1, h2⟩

/-- A pairwise-removal iteration preserves the target invariant: the
target position itself is skipped, and the index is decremented exactly
when the removed call precedes it. -/
theorem pairwiseStep_tgtInv (env : Env) (ile : Bool) (i : Nat) (st : CState)
    (nm : String) (h : TgtInv nm st.p0 st.k0) :
    TgtInv nm (pairwiseStep env ile i st).p0 (pairwiseStep env ile i st).k0 := by
  obtain ⟨h0, h1, h2⟩ := h
  simp only [pairwiseStep]
  split
  · exact ⟨h0, h1, h2⟩
  · next hne =>
    rcases hask : askPred env st.os
        (if ile then { st.p0.Clone.RemoveCall i with needUpdate := true }
          else st.p0.Clone.RemoveCall i)
        (if (i : Int) < st.k0 then st.k0 - 1 else st.k0) with ⟨ok, p', os'⟩
    match ok with
    | false =>
      simp only [hask, Bool.false_eq_true, if_false]
      split
      · exact ⟨h0, h1, h2⟩
      · exact ⟨h0, h1, h2⟩
    | true =>
      simp only [hask, if_true]
      have hcalls : (if ile then { p' with needUpdate := false, execStatus := false }
          else p').calls = (st.p0.RemoveCall i).calls := by
        have hpc := askPred_calls env st.os
          (if ile then { st.p0.Clone.RemoveCall i with needUpdate := true }
            else st.p0.Clone.RemoveCall i)
          (if (i : Int) < st.k0 then st.k0 - 1 else st.k0)
        rw [hask] at hpc
        match ile with
        | true => simpa using hpc
        | false => simpa using hpc
      have hmet : (if ile then { p' with needUpdate := false, execStatus := false }
          else p').calls.map (fun c => c.meta) =
          (st.p0.calls.map (fun c => c.meta)).eraseIdx i := by
        rw [hcalls, removeCall_metas]
      have hlen : (if ile then { p' with needUpdate := false, execStatus := false }
          else p').calls.length =
          if i < st.p0.calls.length then st.p0.calls.length - 1
          else st.p0.calls.length := by
        have : ((if ile then { p' with needUpdate := false, execStatus := false }
            else p').calls.map (fun c => c.meta)).length =
            ((st.p0.calls.map (fun c => c.meta)).eraseIdx i).length := by
          rw [hmet]
        rw [List.length_eraseIdx] at this
        simpa using this
      by_cases hik : (i : Int) < st.k0
      · have hilen : i < st.p0.calls.length := by omega
        have htoNat : (st.k0 - 1).toNat = st.k0.toNat - 1 := by omega
        have hname : ((if ile then { p' with needUpdate := false, execStatus := false }
            else p').calls.map (fun c => c.meta)).getD (st.k0 - 1).toNat
              (default : Call).meta =
            (st.p0.calls.map (fun c => c.meta)).getD st.k0.toNat
              (default : Call).meta := by
          rw [hmet, htoNat]
          exact getD_eraseIdx_shift (default : Call).meta _ i st.k0.toNat
            (by simpa using hilen) (by omega)
        rw [if_pos hik]
        refine tgtInv_of_metas ⟨h0, h1, h2⟩ hname (by omega) ?_
        rw [hlen, if_pos hilen]
        omega
      · have hki : st.k0 < (i : Int) := by
          rcases lt_or_ge st.k0 (i : Int) with hlt | hge
          · exact hlt
          · exact absurd (le_antisymm hge (by omega)) hne
        have hname : ((if ile then { p' with needUpdate := false, execStatus := false }
            else p').calls.map (fun c => c.meta)).getD st.k0.toNat
              (default : Call).meta =
            (st.p0.calls.map (fun c => c.meta)).getD st.k0.toNat
              (default : Call).meta := by
          rw [hmet]
          exact getD_eraseIdx_lt (default : Call).meta _ i st.k0.toNat (by omega)
        rw [if_neg hik]
        refine tgtInv_of_metas ⟨h0, h1, h2⟩ hname h0 ?_
        rw [hlen]
        split
        · omega
        · omega

/-- The pairwise loop preserves the target invariant. -/
theorem pairwiseLoop_tgtInv (env : Env) (ile : Bool) (nm : String) :
    ∀ (c : Nat) (st : CState), TgtInv nm st.p0 st.k0 →
      TgtInv nm (pairwiseLoop env ile c st).p0 (pairwiseLoop env ile c st).k0 := by
  intro c
  induction c with
  | zero => intro st h; exact h
  | succ c ih =>
    intro st h
    exact ih _ (pairwiseStep_tgtInv env ile c st nm h)

/-- `removeCalls_optimize` preserves the target invariant. -/
theorem removeCalls_optimize_tgtInv (env : Env) (ile : Bool) (mat : Mat)
    (os : Nat) (p0 : Prog) (callIndex0 : Int) (crash : Bool) (nm : String)
    (h : TgtInv nm p0 callIndex0) :
    TgtInv nm (removeCalls_optimize env ile mat os p0 callIndex0 crash).p0
      (removeCalls_optimize env ile mat os p0 callIndex0 crash).k0 := by
  simp only [removeCalls_optimize]
  apply pairwiseLoop_tgtInv
  apply prefixStage_tgtInv
  · exact postStage_tgtInv env ile ⟨p0, callIndex0, mat, os, false⟩ nm h
  · exact removeFrontIds_sorted _ _
  · intro i hi
    have hmem := (mem_removeFrontIds (edgeFn mat p0.calls) callIndex0.toNat i).mp hi
    have hpost := postStage_tgtInv env ile ⟨p0, callIndex0, mat, os, false⟩ nm h
    have : (postStage env ile ⟨p0, callIndex0, mat, os, false⟩).k0 = callIndex0 := by
      simp only [postStage]
      repeat' split
      all_goals rfl
    rw [this]
    exact hmem.1

/-- Clearing call properties never changes call metadata. -/
theorem set_props_metas (l : List Call) (i : Nat) (c' : Call)
    (hm : c'.meta = (l.getD i default).meta) :
    (l.set i c').map (fun c => c.meta) = l.map (fun c => c.meta) := by
  rw [map_set, hm, ← getD_map (fun c => c.meta) (default : Call) l i]
  exact set_getD_self ((default : Call).meta) (l.map (fun c => c.meta)) i

/-- `resetCallProps` preserves the target invariant. -/
theorem resetCallProps_tgtInv (env : Env) (os : Nat) (p0 : Prog)
    (callIndex0 : Int) (nm : String) (h : TgtInv nm p0 callIndex0) :
    TgtInv nm (resetCallProps env os p0 callIndex0).1 callIndex0 := by
  obtain ⟨h0, h1, h2⟩ := h
  simp only [resetCallProps]
  split
  · rcases hask : askPred env os
        { p0.Clone with calls := p0.calls.map (fun c => { c with props := {} }) }
        callIndex0 with ⟨ok, p', os'⟩
    match ok with
    | false =>
      simp only [hask, Bool.false_eq_true, if_false]
      exact ⟨h0, h1, h2⟩
    | true =>
      simp only [hask, if_true]
      have hcalls : p'.calls = p0.calls.map (fun c => { c with props := {} }) := by
        have hpc := askPred_calls env os
          { p0.Clone with calls := p0.calls.map (fun c => { c with props := {} }) }
          callIndex0
        rw [hask] at hpc
        exact hpc
      have hmet : p'.calls.map (fun c => c.meta) = p0.calls.map (fun c => c.meta) := by
        rw [hcalls, List.map_map]
        rfl
      have hname : (p'.calls.map (fun c => c.meta)).getD callIndex0.toNat
            (default : Call).meta =
          (p0.calls.map (fun c => c.meta)).getD callIndex0.toNat
            (default : Call).meta := by
        rw [hmet]
      refine tgtInv_of_metas ⟨h0, h1, h2⟩ hname h0 ?_
      have : p'.calls.length = p0.calls.length := by
        have := congrArg List.length hmet
        simpa using this
      omega
  · exact ⟨h0, h1, h2⟩

/-- A property-clearing probe (replace one call's props, ask, commit on
accept) preserves call metadata whichever way the oracle answers. -/
theorem propsProbe_metas (env : Env) (callIndex : Nat) (callIndex0 : Int)
    (q : Prog) (os1 : Nat) (pr : CallProps) :
    (propsProbe env callIndex callIndex0 q os1
        { q.calls.getD callIndex default with props := pr }).1.calls.map
        (fun c => c.meta) = q.calls.map (fun c => c.meta) := by
  simp only [propsProbe]
  rcases hask : askPred env os1 { q.Clone with
      calls := q.calls.set callIndex
        { q.calls.getD callIndex default with props := pr } } callIndex0
    with ⟨ok, p', os'⟩
  match ok with
  | false => simp
  | true =>
    simp only [if_true]
    have hpc := askPred_calls env os1 { q.Clone with
        calls := q.calls.set callIndex
          { q.calls.getD callIndex default with props := pr } } callIndex0
    rw [hask] at hpc
    simp only at hpc
    rw [hpc]
    exact set_props_metas q.calls callIndex _ rfl

/-- `minimizeCallProps` preserves call metadata entirely. -/
theorem minimizeCallProps_metas (env : Env) (os : Nat) (p0 : Prog)
    (callIndex : Nat) (callIndex0 : Int) :
    (minimizeCallProps env os p0 callIndex callIndex0).1.calls.map (fun c => c.meta) =
      p0.calls.map (fun c => c.meta) := by
  simp only [minimizeCallProps]
  repeat' split
  all_goals simp only [propsProbe_metas]

/-- Integer shrinking preserves call metadata when the plug does. -/
theorem minimizeIntStep_metas (ctx : ACtx) (M : List Meta) (plug : Arg → Prog)
    (ty : ArgType) (dir : Dir) (v dv : Nat) (path : String) (s : AState)
    (hplug : ∀ a, (plug a).calls.map (fun c => c.meta) = M)
    (hs : s.p0.calls.map (fun c => c.meta) = M) :
    ((minimizeIntStep ctx plug ty dir v dv path s).2.2).p0.calls.map
      (fun c => c.meta) = M := by
  simp only [minimizeIntStep]
  repeat' split
  all_goals simp only [askPred_calls, hplug, hs]

/-- Resource-reference clearing preserves call metadata when the plug does. -/
theorem resourceMin_metas (ctx : ACtx) (M : List Meta) (plug : Arg → Prog)
    (ty : ArgType) (dir : Dir) (res : Option ResRef) (v : Nat)
    (path : String) (s : AState)
    (hplug : ∀ a, (plug a).calls.map (fun c => c.meta) = M)
    (hs : s.p0.calls.map (fun c => c.meta) = M) :
    ((resourceMin ctx plug ty dir res v path s).2.2).p0.calls.map
      (fun c => c.meta) = M := by
  simp only [resourceMin]
  repeat' split
  all_goals simp only [askPred_calls, hplug, hs]

/-- Buffer shrinking preserves call metadata when the plug does. -/
theorem bufferMin_metas (ctx : ACtx) (M : List Meta) (plug : Arg → Prog)
    (ty : ArgType) (dir : Dir) (bk : BufKind) (rb : Nat) (noZ varlen : Bool)
    (orig : List Nat) (curLen : Nat) (path : String) (s : AState)
    (hplug : ∀ a, (plug a).calls.map (fun c => c.meta) = M)
    (hs : s.p0.calls.map (fun c => c.meta) = M) :
    ((bufferMin ctx plug ty dir bk rb noZ varlen orig curLen path s).2.2).p0.calls.map
      (fun c => c.meta) = M := by
  simp only [bufferMin]
  split
  · exact hs
  · match bk with
    | .blobRand | .blobRange =>
      simp only
      have hst := (blobLoop_state ctx (fun n => plug (.dataA ty dir orig n)) rb
          (min curLen orig.length + (min curLen orig.length - rb) + 1)
          (min curLen orig.length) (min curLen orig.length - rb) s).1
      split
      · simp only [hplug]
      · rw [hst]
        exact hs
    | .filename =>
      dsimp only
      repeat' split
      all_goals simp only [askPred_calls, hplug, hs]
    | .compressed => exact hs

/-- The mutual argument-minimizer functions preserve call metadata of the
committed baseline, provided every proposal the plug builds does. -/
theorem argFuns_metas (ctx : ACtx) (M : List Meta) :
    ∀ fuel : Nat,
      (∀ (plug : Arg → Prog) arg field path s,
        (∀ a, (plug a).calls.map (fun c => c.meta) = M) →
        s.p0.calls.map (fun c => c.meta) = M →
        ((doArg ctx fuel plug arg field path s).2.2).p0.calls.map
          (fun c => c.meta) = M) ∧
      (∀ (plug : Arg → Prog) arg path s,
        (∀ a, (plug a).calls.map (fun c => c.meta) = M) →
        s.p0.calls.map (fun c => c.meta) = M →
        ((typeMin ctx fuel plug arg path s).2.2).p0.calls.map
          (fun c => c.meta) = M) ∧
      (∀ (plugG : List Arg → Prog) fields done rest path s,
        (∀ l, (plugG l).calls.map (fun c => c.meta) = M) →
        s.p0.calls.map (fun c => c.meta) = M →
        ((structLoop ctx fuel plugG fields done rest path s).2.2).p0.calls.map
          (fun c => c.meta) = M) ∧
      (∀ (plugG : List Arg → Prog) kind rb cur c path s,
        (∀ l, (plugG l).calls.map (fun c => c.meta) = M) →
        s.p0.calls.map (fun c => c.meta) = M →
        ((arrayLoop ctx fuel plugG kind rb cur c path s).2.2).p0.calls.map
          (fun c => c.meta) = M) := by
  intro fuel
  induction fuel with
  | zero =>
    exact ⟨fun _ _ _ _ _ _ hs => hs, fun _ _ _ _ _ hs => hs,
      fun _ _ _ _ _ _ _ hs => hs, fun _ _ _ _ _ _ _ _ hs => hs⟩
  | succ fuel ih =>
    obtain ⟨ihD, ihT, ihS, ihA⟩ := ih
    have hDo : ∀ (plug : Arg → Prog) arg field path s,
        (∀ a, (plug a).calls.map (fun c => c.meta) = M) →
        s.p0.calls.map (fun c => c.meta) = M →
        ((doArg ctx (fuel + 1) plug arg field path s).2.2).p0.calls.map
          (fun c => c.meta) = M := by
      intro plug arg field path s hplug hs
      simp only [doArg]
      split
      · exact hs
      · rcases h : typeMin ctx fuel plug arg (path ++ "-" ++ field) s with ⟨r, a', s'⟩
        have hp := ihT plug arg (path ++ "-" ++ field) s hplug hs
        rw [h] at hp
        match r with
        | true => simpa using hp
        | false => simpa using hp
    have hTy : ∀ (plug : Arg → Prog) arg path s,
        (∀ a, (plug a).calls.map (fun c => c.meta) = M) →
        s.p0.calls.map (fun c => c.meta) = M →
        ((typeMin ctx (fuel + 1) plug arg path s).2.2).p0.calls.map
          (fun c => c.meta) = M := by
      intro plug arg path s hplug hs
      match arg with
      | .constA ty dir v =>
        match ty with
        | .intT dv =>
          exact minimizeIntStep_metas ctx M plug (.intT dv) dir v dv path s hplug hs
        | .flagsT dv =>
          exact minimizeIntStep_metas ctx M plug (.flagsT dv) dir v dv path s hplug hs
        | .procT popt dv =>
          simp only [typeMin]
          split
          · exact hs
          · exact minimizeIntStep_metas ctx M plug (.procT popt dv) dir v dv path s hplug hs
        | .common => exact hs
        | .ptrT => exact hs
        | .structT f => exact hs
        | .unionT f => exact hs
        | .arrayT k rb => exact hs
        | .resourceT dv => exact hs
        | .bufferT a b c d => exact hs
      | .pointerA ty dir res =>
        match res with
        | none => exact hs
        | some inner =>
          simp only [typeMin]
          split
          · split
            · simp only [askPred_calls, hplug]
            · exact hs
          · rcases h : doArg ctx fuel (fun x => plug (.pointerA ty dir (some x)))
                inner "" path s with ⟨r, inner', s'⟩
            have hp := ihD (fun x => plug (.pointerA ty dir (some x))) inner "" path s
              (fun a => hplug _) hs
            rw [h] at hp
            simpa using hp
      | .groupA ty dir inner =>
        match ty with
        | .structT fields =>
          simp only [typeMin]
          rcases h : structLoop ctx fuel
              (fun l => plug (.groupA (.structT fields) dir l)) fields [] inner
              path s with ⟨r, l', s'⟩
          have hp := ihS (fun l => plug (.groupA (.structT fields) dir l)) fields
            [] inner path s (fun l => hplug _) hs
          rw [h] at hp
          simpa using hp
        | .arrayT kind rb =>
          simp only [typeMin]
          split
          · split
            · simp only [askPred_calls, hplug]
            · exact hs
          · rcases h : arrayLoop ctx fuel
                (fun l => plug (.groupA (.arrayT kind rb) dir l)) kind rb inner
                inner.length path s with ⟨r, l', s'⟩
            have hp := ihA (fun l => plug (.groupA (.arrayT kind rb) dir l)) kind
              rb inner inner.length path s (fun l => hplug _) hs
            rw [h] at hp
            simpa using hp
        | .common => exact hs
        | .intT dv => exact hs
        | .flagsT dv => exact hs
        | .procT a b => exact hs
        | .ptrT => exact hs
        | .unionT f => exact hs
        | .resourceT dv => exact hs
        | .bufferT a b c d => exact hs
      | .unionA ty dir idx uopt =>
        match ty with
        | .unionT fields =>
          simp only [typeMin]
          rcases h : doArg ctx fuel (fun x => plug (.unionA (.unionT fields) dir idx x))
              uopt (fields.getD idx "") path s with ⟨r, o', s'⟩
          have hp := ihD (fun x => plug (.unionA (.unionT fields) dir idx x)) uopt
            (fields.getD idx "") path s (fun a => hplug _) hs
          rw [h] at hp
          simpa using hp
        | .common => exact hs
        | .intT dv => exact hs
        | .flagsT dv => exact hs
        | .procT a b => exact hs
        | .ptrT => exact hs
        | .structT f => exact hs
        | .arrayT k rb => exact hs
        | .resourceT dv => exact hs
        | .bufferT a b c d => exact hs
      | .dataA ty dir orig curLen =>
        match ty with
        | .bufferT bk rb noZ varlen =>
          exact bufferMin_metas ctx M plug (.bufferT bk rb noZ varlen) dir bk
            rb noZ varlen orig curLen path s hplug hs
        | .common => exact hs
        | .intT dv => exact hs
        | .flagsT dv => exact hs
        | .procT a b => exact hs
        | .ptrT => exact hs
        | .structT f => exact hs
        | .unionT f => exact hs
        | .arrayT k rb => exact hs
        | .resourceT dv => exact hs
      | .resultA ty dir res v =>
        match ty with
        | .resourceT dv =>
          exact resourceMin_metas ctx M plug (.resourceT dv) dir res v path s hplug hs
        | .common => exact hs
        | .intT dv => exact hs
        | .flagsT dv => exact hs
        | .procT a b => exact hs
        | .ptrT => exact hs
        | .structT f => exact hs
        | .unionT f => exact hs
        | .arrayT k rb => exact hs
        | .bufferT a b c d => exact hs
    have hSt : ∀ (plugG : List Arg → Prog) fields done rest path s,
        (∀ l, (plugG l).calls.map (fun c => c.meta) = M) →
        s.p0.calls.map (fun c => c.meta) = M →
        ((structLoop ctx (fuel + 1) plugG fields done rest path s).2.2).p0.calls.map
          (fun c => c.meta) = M := by
      intro plugG fields done rest path s hplug hs
      match rest, fields with
      | [], _ => exact hs
      | a :: rest', [] => exact hs
      | a :: rest', fname :: fnames' =>
        simp only [structLoop]
        rcases h : doArg ctx fuel (fun x => plugG (done ++ x :: rest')) a fname path s
          with ⟨r, a', s'⟩
        have hp := ihD (fun x => plugG (done ++ x :: rest')) a fname path s
          (fun x => hplug _) hs
        rw [h] at hp
        match r with
        | true => simpa using hp
        | false =>
          simp only
          exact ihS plugG fnames' (done ++ [a']) rest' path s' hplug (by simpa using hp)
    have hAr : ∀ (plugG : List Arg → Prog) kind rb cur c path s,
        (∀ l, (plugG l).calls.map (fun c => c.meta) = M) →
        s.p0.calls.map (fun c => c.meta) = M →
        ((arrayLoop ctx (fuel + 1) plugG kind rb cur c path s).2.2).p0.calls.map
          (fun c => c.meta) = M := by
      intro plugG kind rb cur c path s hplug hs
      match c with
      | 0 => exact hs
      | i + 1 =>
        simp only [arrayLoop]
        split
        · split
          · simp only [askPred_calls, hplug]
          · exact hs
        · rcases h : doArg ctx fuel (fun x => plugG (cur.set i x))
              (cur.getD i default) "" (path ++ "-" ++ toString i) s with ⟨r, e', s'⟩
          have hp := ihD (fun x => plugG (cur.set i x)) (cur.getD i default) ""
            (path ++ "-" ++ toString i) s (fun x => hplug _) hs
          rw [h] at hp
          match r with
          | true => simpa using hp
          | false =>
            simp only
            exact ihA plugG kind rb (cur.set i e') i path s' hplug (by simpa using hp)
    exact ⟨hDo, hTy, hSt, hAr⟩

/-- One pass over a call's top-level arguments preserves call metadata of
the committed baseline. -/
theorem passLoop_metas (ctx : ACtx) (M : List Meta) (fuel i : Nat) (clone : Prog)
    (hclone : clone.calls.map (fun c => c.meta) = M) :
    ∀ (fnames : List String) (j : Nat) (curArgs : List Arg) (s : AState),
      s.p0.calls.map (fun c => c.meta) = M →
      ((passLoop ctx fuel i clone fnames j curArgs s).2).p0.calls.map
        (fun c => c.meta) = M := by
  intro fnames
  induction fnames with
  | nil => intro j curArgs s hs; exact hs
  | cons fname fnames ih =>
    intro j curArgs s hs
    simp only [passLoop]
    rcases h : doArg ctx fuel
        (fun a => { clone with
          calls := clone.calls.set i
            { clone.calls.getD i default with args := curArgs.set j a } })
        (curArgs.getD j default) fname "" s with ⟨r, a', s'⟩
    have hplug : ∀ a : Arg, (({ clone with
        calls := clone.calls.set i
          { clone.calls.getD i default with args := curArgs.set j a } } : Prog)).calls.map
          (fun c => c.meta) = M := by
      intro a
      show (clone.calls.set i
        { clone.calls.getD i default with args := curArgs.set j a }).map
          (fun c => c.meta) = M
      rw [set_props_metas clone.calls i
        { clone.calls.getD i default with args := curArgs.set j a } rfl]
      exact hclone
    have hp := (argFuns_metas ctx M fuel).1
      (fun a => { clone with
        calls := clone.calls.set i
          { clone.calls.getD i default with args := curArgs.set j a } })
      (curArgs.getD j default) fname "" s hplug hs
    rw [h] at hp
    match r with
    | true => simpa using hp
    | false =>
      simp only
      exact ih (j + 1) (curArgs.set j a') s' (by simpa using hp)

/-- The restart loop preserves call metadata of the committed baseline. -/
theorem againLoop_metas (ctx : ACtx) (M : List Meta) (i : Nat) :
    ∀ (fuel : Nat) (s : AState), s.p0.calls.map (fun c => c.meta) = M →
      (againLoop ctx i fuel s).p0.calls.map (fun c => c.meta) = M := by
  intro fuel
  induction fuel with
  | zero => intro s hs; exact hs
  | succ fuel ih =>
    intro s hs
    simp only [againLoop]
    rcases h : passLoop ctx fuel i s.p0.Clone
        (s.p0.Clone.calls.getD i default).meta.argNames 0
        (s.p0.Clone.calls.getD i default).args s with ⟨r, s'⟩
    have hp := passLoop_metas ctx M fuel i s.p0.Clone hs
      (s.p0.Clone.calls.getD i default).meta.argNames 0
      (s.p0.Clone.calls.getD i default).args s hs
    rw [h] at hp
    match r with
    | true => exact ih s' (by simpa using hp)
    | false => simpa using hp

/-- One body of the per-call loop preserves call metadata. -/
theorem argPhaseStep_metas (env : Env) (k0 : Int) (crash argOpt doProps : Bool)
    (fuel i : Nat) (st : Prog × Nat) :
    ((argPhaseStep env k0 crash argOpt doProps fuel i st).1).calls.map
        (fun c => c.meta) = st.1.calls.map (fun c => c.meta) := by
  simp only [argPhaseStep]
  split
  · rfl
  · have hag := againLoop_metas ⟨env, k0, crash, argOpt⟩
      (st.1.calls.map (fun c => c.meta)) i fuel ⟨st.1, [], st.2⟩ rfl
    split
    · rw [minimizeCallProps_metas]
      exact hag
    · exact hag

/-- The whole per-call loop preserves call metadata. -/
theorem argPhase_metas (env : Env) (k0 : Int) (crash argOpt doProps : Bool)
    (fuel : Nat) :
    ∀ (is : List Nat) (st : Prog × Nat),
      ((argPhase env k0 crash argOpt doProps fuel is st).1).calls.map
          (fun c => c.meta) = st.1.calls.map (fun c => c.meta) := by
  intro is
  induction is with
  | nil => intro st; rfl
  | cons i is ih =>
    intro st
    simp only [argPhase, List.foldl_cons] at *
    rw [ih]
    exact argPhaseStep_metas env k0 crash argOpt doProps fuel i st

/-- C8: with a valid non-crash target index (`0 ≤ k0 < |P0|`), `Minimize`
returns `some`: the final index `k` satisfies `0 ≤ k < |P|` and the call
at `k` bears the original target's syscall name.  The proof threads the
target-identity invariant through every stage: the suffix and prefix
drops and the pairwise loop never remove the target and shift the index
by exactly the number of removals before it, and the property reset and
the per-call argument loop never change call metadata. -/
theorem c8_target_identity (fuel : Nat) (env : Env) (ile : Bool) (mat : Mat)
    (p0 : Prog) (k0 : Int) (crash : Bool)
    (h0 : 0 ≤ k0) (h1 : k0 < (p0.calls.length : Int)) :
    ∃ p k flag mat',
      Minimize fuel env ile mat p0 k0 crash = (some (p, k, flag), mat') ∧
      0 ≤ k ∧ k < (p.calls.length : Int) ∧
      (p.calls.getD k.toNat default).meta.name =
        (p0.calls.getD k0.toNat default).meta.name := by
  simp only [Minimize]
  set RC := removeCalls_optimize env ile mat 0 p0 k0 crash with hRC
  set P2 := (resetCallProps env RC.os RC.p0 RC.k0).1 with hP2
  set OS2 := (resetCallProps env RC.os RC.p0 RC.k0).2 with hOS2
  set P3 := (argPhase env RC.k0 crash false true fuel
    (List.range P2.calls.length) (P2, OS2)).1 with hP3
  have hInit : TgtInv ((p0.calls.getD k0.toNat default).meta.name) p0 k0 :=
    ⟨h0, h1, rfl⟩
  have hst : TgtInv ((p0.calls.getD k0.toNat default).meta.name) RC.p0 RC.k0 := by
    rw [hRC]
    exact removeCalls_optimize_tgtInv env ile mat 0 p0 k0 crash _ hInit
  have h2 : TgtInv ((p0.calls.getD k0.toNat default).meta.name) P2 RC.k0 := by
    rw [hP2]
    exact resetCallProps_tgtInv env RC.os RC.p0 RC.k0 _ hst
  have hmet : P3.calls.map (fun c => c.meta) = P2.calls.map (fun c => c.meta) := by
    rw [hP3]
    simpa using argPhase_metas env RC.k0 crash false true fuel
      (List.range P2.calls.length) (P2, OS2)
  have hlen : P3.calls.length = P2.calls.length := by
    simpa using congrArg List.length hmet
  have h3 : TgtInv ((p0.calls.getD k0.toNat default).meta.name) P3 RC.k0 :=
    tgtInv_of_metas h2 (by rw [hmet]) h2.1 (by rw [hlen]; exact h2.2.1)
  rw [if_neg (show ¬(k0 ≠ -1 ∧ (k0 < 0 ∨ (p0.calls.length : Int) ≤ k0)) by omega)]
  rw [if_pos (show k0 ≠ -1 by omega)]
  rw [if_pos (show RC.k0 ≠ -1 by have := hst.1; omega)]
  rw [if_neg (show ¬(RC.k0 < 0 ∨ (P3.calls.length : Int) ≤ RC.k0 ∨
      (p0.calls.getD k0.toNat default).meta.name ≠
        (P3.calls.getD RC.k0.toNat default).meta.name) by
    rintro (h | h | h)
    · have := hst.1; omega
    · have := h3.2.1; omega
    · exact h h3.2.2.symm)]
  exact ⟨P3, RC.k0, RC.flag, RC.mat, rfl, hst.1, h3.2.1, h3.2.2⟩

def c8Meta : Meta := { name := "c8-target", id := 0, noMinimize := false, argNames := [] }

def c8Prog : Prog := { calls := [{ meta := c8Meta }] }

def c8Env : Env := { ok := fun _ _ _ => false, execStat := fun _ => false, hash := fun _ => [] }

/-- Witness for C8 at a concrete one-call program. -/
theorem c8_target_identity_witness :
    (0 : Int) ≤ 0 ∧ (0 : Int) < (c8Prog.calls.length : Int) ∧
    (∃ p k flag mat',
      Minimize 3 c8Env false (fun _ _ => 0) c8Prog 0 false = (some (p, k, flag), mat') ∧
      0 ≤ k ∧ k < (p.calls.length : Int) ∧
      (p.calls.getD k.toNat default).meta.name =
        (c8Prog.calls.getD (0 : Int).toNat default).meta.name) :=
  ⟨le_refl 0, by decide,
    c8_target_identity 3 c8Env false (fun _ _ => 0) c8Prog 0 false
      (by decide) (by decide)⟩

end SyzMini
